import Mathlib

/-!
# A verification development for the concurrent crawler (`crawler.go`)

The Go program starts one goroutine per discovered link, deduplicates fetches
through a mutex-protected `visited` map inside `fakeFetcher.Fetch`, and lets
`main` detect completion by summing the `+1` / `-1` values it receives on the
unbuffered channel `count`.

Embedding.

* Go maps are association lists read with `List.lookup`; a missing key of
  `map[string]bool` reads as `false`.  As in the package-level variable
  `fetcher`, the map `visited` is allocated and the values of `urls` are
  non-nil pointers, so `Fetch` does not panic.
* `error` is `Option String`, `none` being `nil`.
* `fakeFetcher.Fetch` holds `cache.mux` for its whole body, so it is one atomic
  state transformer.
* `Crawl` is embedded twice: as the list of effects it performs in program
  order (`Crawl`), and as a control-state machine (`CrawlTask.step`) that the
  interleaving semantics (`step`) schedules.  `CrawlTask.run_start` shows that
  the two agree.
* A send on the unbuffered channel `count` is a rendezvous with `main`: it is
  enabled only while `main` is blocked in `<-count`, that is while
  `crawlCount > 0`, and it updates `crawlCount` in the same step.
* `int` values are unbounded integers.  `depth - 1` is only evaluated for
  `depth > 0`, and `crawlCount` is bounded by the number of live goroutines.
-/

namespace Crawler

/-! ## Data model -/

/-- The triple `(body string, urls []string, err error)` returned by `Fetch`. -/
structure FetchOut where
  body : String
  urls : List String
  err : Option String
deriving DecidableEq, Repr

/-- The interface `Fetcher`, over the type `σ` of the state behind the receiver. -/
structure Fetcher (σ : Type) where
  Fetch : σ → String → FetchOut × σ

/-- The struct `fakeResult`. -/
structure fakeResult where
  body : String
  urls : List String
deriving DecidableEq, Repr

/-- The struct `Cache`; the mutex `mux` is rendered by the atomicity of `fakeFetcher.Fetch`. -/
structure Cache where
  visited : List (String × Bool)
deriving DecidableEq, Repr

/-- The read `c.visited[url]`: a missing key reads as `false`. -/
def Cache.get (c : Cache) (url : String) : Bool :=
  (c.visited.lookup url).getD false

/-- The write `c.visited[url] = true`. -/
def Cache.set (c : Cache) (url : String) : Cache :=
  { visited := (url, true) :: c.visited }

/-- The struct `fakeFetcher`. -/
structure fakeFetcher where
  urls : List (String × fakeResult)
  cache : Cache
deriving DecidableEq, Repr

/-- The method `(f *fakeFetcher) Fetch(url)`, run under `f.cache.mux`. -/
def fakeFetcher.Fetch (f : fakeFetcher) (url : String) : FetchOut × fakeFetcher :=
  if f.cache.get url = true then
    (⟨"", [], some ("already visited " ++ url)⟩, f)
  else
    match f.urls.lookup url with
    | some res => (⟨res.body, res.urls, none⟩, { f with cache := f.cache.set url })
    | none => (⟨"", [], some ("not found: " ++ url)⟩, f)

/-- The type `*fakeFetcher` as an implementation of `Fetcher`. -/
def fakeFetcher.asFetcher : Fetcher fakeFetcher :=
  { Fetch := fakeFetcher.Fetch }

/-- The package-level variable `fetcher`. -/
def fetcher : fakeFetcher :=
  { urls :=
      [ ("http://golang.org/",
          ⟨"The Go Programming Language",
           ["http://golang.org/pkg/", "http://golang.org/cmd/"]⟩),
        ("http://golang.org/pkg/",
          ⟨"Packages",
           ["http://golang.org/", "ç/", "http://golang.org/pkg/fmt/",
            "http://golang.org/pkg/os/"]⟩),
        ("http://golang.org/pkg/fmt/",
          ⟨"Package fmt", ["http://golang.org/", "http://golang.org/pkg/"]⟩),
        ("http://golang.org/pkg/os/",
          ⟨"Package os", ["http://golang.org/", "http://golang.org/pkg/"]⟩) ],
    cache := { visited := [] } }

/-! ## `Crawl` as a sequence of effects -/

/-- The effects a `Crawl` goroutine can perform. -/
inductive Action where
  /-- The call `fetcher.Fetch(url)`. -/
  | fetchCall (url : String)
  /-- The statement `fmt.Println(err)`. -/
  | println (err : String)
  /-- The statement `fmt.Printf("found: %s %q\n", url, body)`. -/
  | printFound (url : String) (body : String)
  /-- The send `count <- v`, complete once `main` has received `v`. -/
  | send (v : Int)
  /-- The statement `go Crawl(url, depth, fetcher)`. -/
  | go (url : String) (depth : Int)
deriving DecidableEq, Repr

/-- The loop `for _, u := range urls { count <- 1; go Crawl(u, depth-1, fetcher) }`. -/
def spawnLoop (depth : Int) : List String → List Action
  | [] => []
  | u :: rest => Action.send 1 :: Action.go u (depth - 1) :: spawnLoop depth rest

/-- The function `Crawl`: the effects of one call in program order, and the
fetcher state it leaves.  The deferred `count <- -1` runs on every return. -/
def Crawl {σ : Type} (F : Fetcher σ) (url : String) (depth : Int) (f : σ) :
    List Action × σ :=
  if depth ≤ 0 then
    ([Action.send (-1)], f)
  else
    let r := F.Fetch f url
    match r.1.err with
    | some e => ([Action.fetchCall url, Action.println e, Action.send (-1)], r.2)
    | none =>
      (Action.fetchCall url :: Action.printFound url r.1.body ::
        (spawnLoop depth r.1.urls ++ [Action.send (-1)]), r.2)

/-! ## `Crawl` as a control-state machine -/

/-- The control state of one `Crawl(url, depth, fetcher)` goroutine. -/
inductive CrawlTask where
  /-- Created by `go`, body not yet entered. -/
  | start (url : String) (depth : Int)
  /-- The call `fetcher.Fetch(url)` has returned `out`. -/
  | fetched (url : String) (depth : Int) (out : FetchOut)
  /-- At the head of the `range` loop with `rest` still to visit. -/
  | ranging (url : String) (depth : Int) (rest : List String)
  /-- The send `count <- 1` for `u` is complete, `go Crawl(u, ...)` is next. -/
  | spawning (url : String) (depth : Int) (u : String) (rest : List String)
  /-- The error was printed, the deferred send is next. -/
  | returning (url : String) (depth : Int)
  /-- The deferred `count <- -1` is complete, the goroutine is gone. -/
  | done (url : String) (depth : Int)
deriving DecidableEq, Repr

/-- The argument `url` of the call. -/
def CrawlTask.url : CrawlTask → String
  | .start u _ => u
  | .fetched u _ _ => u
  | .ranging u _ _ => u
  | .spawning u _ _ _ => u
  | .returning u _ => u
  | .done u _ => u

/-- The argument `depth` of the call. -/
def CrawlTask.depth : CrawlTask → Int
  | .start _ d => d
  | .fetched _ d _ => d
  | .ranging _ d _ => d
  | .spawning _ d _ _ => d
  | .returning _ d => d
  | .done _ d => d

/-- Whether the goroutine has finished. -/
def CrawlTask.isDone : CrawlTask → Bool
  | .done _ _ => true
  | _ => false

/-- Whether the goroutine is between `count <- 1` and the `go` statement. -/
def CrawlTask.isSpawning : CrawlTask → Bool
  | .spawning _ _ _ _ => true
  | _ => false

/-- The next effect of a goroutine, the control state after it and the fetcher
state after it.  Tests (`depth <= 0`, `err != nil`, end of the loop) are folded
into the effect that follows them. -/
def CrawlTask.step {σ : Type} (F : Fetcher σ) (f : σ) :
    CrawlTask → Option (Action × CrawlTask × σ)
  | .start url depth =>
    if depth ≤ 0 then some (Action.send (-1), .done url depth, f)
    else some (Action.fetchCall url, .fetched url depth (F.Fetch f url).1, (F.Fetch f url).2)
  | .fetched url depth out =>
    match out.err with
    | some e => some (Action.println e, .returning url depth, f)
    | none => some (Action.printFound url out.body, .ranging url depth out.urls, f)
  | .ranging url depth [] => some (Action.send (-1), .done url depth, f)
  | .ranging url depth (u :: rest) => some (Action.send 1, .spawning url depth u rest, f)
  | .spawning url depth u rest => some (Action.go u (depth - 1), .ranging url depth rest, f)
  | .returning url depth => some (Action.send (-1), .done url depth, f)
  | .done _ _ => none

/-- Run a goroutine alone for at most `fuel` effects, every send completing at once. -/
def CrawlTask.run {σ : Type} (F : Fetcher σ) : Nat → CrawlTask → σ → List Action × CrawlTask × σ
  | 0, t, f => ([], t, f)
  | fuel + 1, t, f =>
    match CrawlTask.step F f t with
    | none => ([], t, f)
    | some (a, t', f') =>
      let r := CrawlTask.run F fuel t' f'
      (a :: r.1, r.2.1, r.2.2)

/-! ## The whole program: `main` and the goroutines -/

/-- The state of the program. -/
structure State (σ : Type) where
  /-- The state behind the shared `fetcher`. -/
  fetcher : σ
  /-- The goroutines created so far, in creation order. -/
  tasks : List CrawlTask
  /-- The local variable `crawlCount` of `main`. -/
  crawlCount : Int
  /-- Whether `main` has left its loop and returned. -/
  mainDone : Bool
  /-- The effects performed so far, oldest first, each with the index of its goroutine. -/
  log : List (Nat × Action)
deriving DecidableEq, Repr

/-- A scheduling decision. -/
inductive Choice where
  /-- Goroutine `i` performs its next effect. -/
  | task (i : Nat)
  /-- The loop test `crawlCount > 0` fails and `main` returns. -/
  | mainReturn
deriving DecidableEq, Repr

/-- The state after `go Crawl(root, depth, fetcher)` and `crawlCount := 1`. -/
def initState {σ : Type} (root : String) (depth : Int) (f : σ) : State σ :=
  { fetcher := f, tasks := [CrawlTask.start root depth], crawlCount := 1,
    mainDone := false, log := [] }

/-- The state in which `main` enters its loop. -/
def main : State fakeFetcher :=
  initState "http://golang.org/" 4 fetcher

/-- The value `main` adds to `crawlCount` when the effect completes. -/
def Action.delta : Action → Int
  | .send v => v
  | _ => 0

/-- Whether the effect is a send on `count`. -/
def Action.isSend : Action → Bool
  | .send _ => true
  | _ => false

/-- The goroutines the effect creates. -/
def Action.spawned : Action → List CrawlTask
  | .go u d => [CrawlTask.start u d]
  | _ => []

/-- One step of the program.  Nothing runs once `main` has returned.  A send is
received by `main` in the same step, which needs `main` to be blocked in
`<-count`, that is `crawlCount > 0`. -/
def step {σ : Type} (F : Fetcher σ) (s : State σ) : Choice → Option (State σ)
  | .mainReturn =>
    if s.mainDone = false ∧ s.crawlCount ≤ 0 then
      some { s with mainDone := true }
    else none
  | .task i =>
    if s.mainDone = true then none
    else
      match s.tasks[i]? with
      | none => none
      | some t =>
        match CrawlTask.step F s.fetcher t with
        | none => none
        | some (a, t', f') =>
          if a.isSend = true ∧ s.crawlCount ≤ 0 then none
          else
            some { fetcher := f', tasks := s.tasks.set i t' ++ a.spawned,
                   crawlCount := s.crawlCount + a.delta, mainDone := false,
                   log := s.log ++ [(i, a)] }

/-- Run a schedule. -/
def exec {σ : Type} (F : Fetcher σ) : State σ → List Choice → Option (State σ)
  | s, [] => some s
  | s, c :: cs =>
    match step F s c with
    | none => none
    | some s' => exec F s' cs

/-- The states some schedule reaches from `s₀`. -/
def Reachable {σ : Type} (F : Fetcher σ) (s₀ s : State σ) : Prop :=
  ∃ cs : List Choice, exec F s₀ cs = some s

/-- A sequence of `Fetch` calls on one `fakeFetcher`, each under the mutex, so
one after the other: the results in call order. -/
def fakeFetcher.fetchAll (f : fakeFetcher) : List String → List FetchOut
  | [] => []
  | u :: us => (f.Fetch u).1 :: fetchAll (f.Fetch u).2 us

/-- The number of calls on `url` in `calls` that return a `nil` error. -/
def fakeFetcher.successes (f : fakeFetcher) (calls : List String) (url : String) : Nat :=
  ((calls.zip (f.fetchAll calls)).filter
    (fun p => decide (p.1 = url) && decide (p.2.err = none))).length

/-- The weighted account of a state: task weights `g`, `c` times `crawlCount`,
a weight `φ` of the fetcher state, minus the weights `h` of the logged effects. -/
def account {σ : Type} (g : CrawlTask → Int) (c : Int) (φ : σ → Int) (h : Action → Int)
    (s : State σ) : Int :=
  (s.tasks.map g).sum + c * s.crawlCount + φ s.fetcher - (s.log.map (fun e => h e.2)).sum

/-- The pending units a goroutine stands for: itself while it has not finished,
and one more while a child it has registered with `count <- 1` is not yet created. -/
def CrawlTask.pendingUnits : CrawlTask → Nat
  | .done _ _ => 0
  | .spawning _ _ _ _ => 2
  | _ => 1

/-- The number of `Crawl` tasks that are registered (the root by the seed `1`, a
child by its `+1` received by `main`) and whose `-1` has not been received:
the goroutines not yet finished, plus the registered children not yet created. -/
def pending {σ : Type} (s : State σ) : Nat :=
  s.tasks.countP (fun t => !t.isDone) + s.tasks.countP CrawlTask.isSpawning

/-- The number of register signals (`count <- 1`) received by `main`. -/
def registers (log : List (Nat × Action)) : Nat :=
  log.countP (fun e => decide (e.2 = Action.send 1))

/-- The number of deregister signals (`count <- -1`) received by `main`. -/
def deregisters (log : List (Nat × Action)) : Nat :=
  log.countP (fun e => decide (e.2 = Action.send (-1)))

/-- Whether the effect is a `go` statement. -/
def Action.isGo : Action → Bool
  | .go _ _ => true
  | _ => false

/-- The number of `go Crawl(...)` statements executed by the goroutines. -/
def spawns (log : List (Nat × Action)) : Nat :=
  log.countP (fun e => e.2.isGo)

/-- A complete schedule of the program: every goroutine runs to its end as soon
as it exists, in creation order, and `main` returns last. -/
def mainSchedule : List Choice :=
  List.replicate 7 (Choice.task 0) ++ List.replicate 11 (Choice.task 1) ++
  List.replicate 3 (Choice.task 2) ++ List.replicate 3 (Choice.task 3) ++
  List.replicate 3 (Choice.task 4) ++ List.replicate 7 (Choice.task 5) ++
  List.replicate 7 (Choice.task 6) ++ List.replicate 3 (Choice.task 7) ++
  List.replicate 3 (Choice.task 8) ++ List.replicate 3 (Choice.task 9) ++
  List.replicate 3 (Choice.task 10) ++ [Choice.mainReturn]

/-- The state `mainSchedule` ends in. -/
def mainFinal : State fakeFetcher :=
  (exec fakeFetcher.asFetcher main mainSchedule).getD main

/-- The longest list of links in a `urls` map. -/
def maxLinks : List (String × fakeResult) → Nat
  | [] => 0
  | p :: rest => max p.2.urls.length (maxLinks rest)

/-- A bound on the number of steps of a goroutine started at depth `n` and of
all its descendants, when no page has more than `L` links. -/
def weight (L : Nat) : Nat → Nat
  | 0 => 1
  | n + 1 => 3 + L * (2 + weight L n)

/-- A bound on the number of steps left to a goroutine and to the descendants it
will still create, when no page has more than `L` links. -/
def CrawlTask.potential (L : Nat) : CrawlTask → Nat
  | .start _ depth => weight L depth.toNat
  | .fetched _ depth out =>
    match out.err with
    | some _ => 2
    | none => 2 + out.urls.length * (2 + weight L (depth - 1).toNat)
  | .ranging _ depth rest => 1 + rest.length * (2 + weight L (depth - 1).toNat)
  | .spawning _ depth _ rest =>
    2 + weight L (depth - 1).toNat + rest.length * (2 + weight L (depth - 1).toNat)
  | .returning _ _ => 1
  | .done _ _ => 0

/-- A bound on the number of steps left to the program. -/
def potential (s : State fakeFetcher) : Nat :=
  (s.tasks.map (CrawlTask.potential (maxLinks s.fetcher.urls))).sum +
    (if s.mainDone = true then 0 else 1)

/-- The url of a `found` line. -/
def Action.foundUrl : Action → Option String
  | .printFound u _ => some u
  | _ => none

/-- The url of a `Fetch` call. -/
def Action.fetchUrl : Action → Option String
  | .fetchCall u => some u
  | _ => none

/-- The urls of the `found` lines printed so far, oldest first. -/
def foundUrls (log : List (Nat × Action)) : List String :=
  log.filterMap (fun e => e.2.foundUrl)

/-- The urls of the `Fetch` calls made so far, oldest first. -/
def fetchedUrls (log : List (Nat × Action)) : List String :=
  log.filterMap (fun e => e.2.fetchUrl)

/-- The url `u` is the root, or a link of a page whose `found` line is printed. -/
def Linked (urls : List (String × fakeResult)) (root : String)
    (log : List (Nat × Action)) (u : String) : Prop :=
  u = root ∨ ∃ X r, X ∈ foundUrls log ∧ urls.lookup X = some r ∧ u ∈ r.urls

/-- What a goroutine holds comes from the `urls` map: a successful result is
the stored one, and the links it still ranges over are links of its own page,
whose `found` line it has printed. -/
def TaskOK (urls : List (String × fakeResult)) (log : List (Nat × Action)) :
    CrawlTask → Prop
  | .fetched url _ out =>
    out.err = none → ∃ r, urls.lookup url = some r ∧ out.urls = r.urls
  | .ranging url _ rest =>
    url ∈ foundUrls log ∧ ∃ r, urls.lookup url = some r ∧ ∀ v ∈ rest, v ∈ r.urls
  | .spawning url _ u rest =>
    url ∈ foundUrls log ∧ ∃ r, urls.lookup url = some r ∧ u ∈ r.urls ∧ ∀ v ∈ rest, v ∈ r.urls
  | _ => True

/-- The url is reachable from `root` along links of pages other than `X`: every
page whose links the path follows is different from `X`. -/
inductive ReachableAvoiding (urls : List (String × fakeResult)) (root X : String) :
    String → Prop where
  | root : ReachableAvoiding urls root X root
  | link (Z : String) (r : fakeResult) (u : String) :
    ReachableAvoiding urls root X Z → Z ≠ X → urls.lookup Z = some r → u ∈ r.urls →
    ReachableAvoiding urls root X u

/-- The invariant behind error isolation: goroutines exist only for the root
and for links of pages whose fetch succeeded, and every `Fetch` call was made
by a goroutine for that url. -/
def Isolated (urls : List (String × fakeResult)) (root : String)
    (s : State fakeFetcher) : Prop :=
  s.fetcher.urls = urls ∧
  (∀ t ∈ s.tasks, Linked urls root s.log t.url ∧ TaskOK urls s.log t) ∧
  (∀ Y ∈ fetchedUrls s.log, ∃ t ∈ s.tasks, t.url = Y)

/-! ### A finite abstraction for exhaustive exploration

Bodies and the log do not influence control: erasing them gives states that can
be compared, so that the states reachable after `n` steps can be listed. -/

/-- Forget the body of a stored page. -/
def fakeResult.erase (r : fakeResult) : fakeResult :=
  { body := "", urls := r.urls }

/-- Forget the bodies of the stored pages. -/
def fakeFetcher.erase (f : fakeFetcher) : fakeFetcher :=
  { urls := f.urls.map (fun p => (p.1, p.2.erase)), cache := f.cache }

/-- Forget the body a goroutine holds. -/
def CrawlTask.erase : CrawlTask → CrawlTask
  | .fetched url depth out => .fetched url depth { body := "", urls := out.urls, err := out.err }
  | t => t

/-- Forget the body in a `found` line. -/
def Action.erase : Action → Action
  | .printFound url _ => .printFound url ""
  | a => a

/-- Forget the bodies and the log. -/
def State.erase (s : State fakeFetcher) : State fakeFetcher :=
  { fetcher := s.fetcher.erase, tasks := s.tasks.map CrawlTask.erase,
    crawlCount := s.crawlCount, mainDone := s.mainDone, log := [] }

/-- The erased successors of a state. -/
def succs (s : State fakeFetcher) : List (State fakeFetcher) :=
  (Choice.mainReturn :: (List.range s.tasks.length).map Choice.task).filterMap
    (fun c => (step fakeFetcher.asFetcher s c).map State.erase)

/-- Add a state to a list that has no duplicates. -/
def insertNew (a : State fakeFetcher) (l : List (State fakeFetcher)) :
    List (State fakeFetcher) :=
  if a ∈ l then l else a :: l

/-- The erased states one step after the states of `L`, without duplicates. -/
def nextLayer (L : List (State fakeFetcher)) : List (State fakeFetcher) :=
  (L.flatMap succs).foldr insertNew []

/-- Check `P` on the states of `L` and on all states reached from them, which
must be exhausted in fewer than `n` steps. -/
def checkLayers (P : State fakeFetcher → Bool) : Nat → List (State fakeFetcher) → Bool
  | 0, L => L.isEmpty
  | n + 1, L => L.all P && checkLayers P n (nextLayer L)

/-- Whether the goroutine has not yet entered the body of `Crawl`. -/
def CrawlTask.isStart : CrawlTask → Bool
  | .start _ _ => true
  | _ => false

/-- Whether the goroutine has called `Fetch(u)`: it crawls `u` at a positive
depth and is past the call. -/
def CrawlTask.hasFetched (u : String) (t : CrawlTask) : Bool :=
  decide (t.url = u) && decide (0 < t.depth) && !t.isStart

/-- Whether the goroutine holds a successful result for `u` and has not yet
printed its `found` line. -/
def CrawlTask.holdsFound (u : String) : CrawlTask → Bool
  | .fetched url _ out => decide (url = u) && out.err.isNone
  | _ => false

/-- The fixture `{A: links [B, C], B: links [A], C: links []}` with an empty
visited set; the bodies are arbitrary. -/
def scenario (a b c : String) : fakeFetcher :=
  { urls := [("A", ⟨a, ["B", "C"]⟩), ("B", ⟨b, ["A"]⟩), ("C", ⟨c, []⟩)],
    cache := { visited := [] } }

/-- What the exploration of the fixture checks in every state: at most one
goroutine has called `Fetch("A")`, and once `main` has returned exactly one
has, and the visited set is `A`, `B`, `C`. -/
def scenarioOK (s : State fakeFetcher) : Bool :=
  decide (s.tasks.countP (CrawlTask.hasFetched "A") ≤ 1) &&
  (!s.mainDone ||
    (decide (s.tasks.countP (CrawlTask.hasFetched "A") = 1) &&
      s.fetcher.cache.get "A" && s.fetcher.cache.get "B" && s.fetcher.cache.get "C" &&
      s.fetcher.cache.visited.all (fun p => decide (p.1 ∈ ["A", "B", "C"]))))

/-- A complete schedule of the fixture run from root `A` at depth 2. -/
def scenarioSchedule : List Choice :=
  List.replicate 7 (Choice.task 0) ++ List.replicate 5 (Choice.task 1) ++
  List.replicate 3 (Choice.task 2) ++ [Choice.task 3, Choice.mainReturn]

/-- The state `scenarioSchedule` ends in. -/
def scenarioFinal : State fakeFetcher :=
  (exec fakeFetcher.asFetcher (initState "A" 2 (scenario "a" "b" "c")) scenarioSchedule).getD
    (initState "A" 2 (scenario "a" "b" "c"))

/-! ## Theorems -/

/-! ### `fakeFetcher.Fetch` -/

theorem Cache.get_set (c : Cache) (u v : String) :
    (c.set u).get v = if v = u then true else c.get v := by
  by_cases h : v = u
  · simp [Cache.get, Cache.set, List.lookup, h]
  · have h' : (v == u) = false := by simpa using h
    simp [Cache.get, Cache.set, List.lookup, h, h']

theorem fakeFetcher.Fetch_visited (f : fakeFetcher) (url : String)
    (h : f.cache.get url = true) :
    f.Fetch url = (⟨"", [], some ("already visited " ++ url)⟩, f) := by
  simp [fakeFetcher.Fetch, h]

theorem fakeFetcher.Fetch_found (f : fakeFetcher) (url : String) (res : fakeResult)
    (h : f.cache.get url = false) (hr : f.urls.lookup url = some res) :
    f.Fetch url = (⟨res.body, res.urls, none⟩, { f with cache := f.cache.set url }) := by
  simp [fakeFetcher.Fetch, h, hr]

theorem fakeFetcher.Fetch_missing (f : fakeFetcher) (url : String)
    (h : f.cache.get url = false) (hr : f.urls.lookup url = none) :
    f.Fetch url = (⟨"", [], some ("not found: " ++ url)⟩, f) := by
  simp [fakeFetcher.Fetch, h, hr]

theorem fakeFetcher.Fetch_urls (f : fakeFetcher) (url : String) :
    (f.Fetch url).2.urls = f.urls := by
  unfold fakeFetcher.Fetch
  split
  · rfl
  · split <;> rfl

theorem fakeFetcher.Fetch_mono (f : fakeFetcher) (url v : String)
    (h : f.cache.get v = true) : (f.Fetch url).2.cache.get v = true := by
  unfold fakeFetcher.Fetch
  split
  · exact h
  · split
    · simp [Cache.get_set, h]
    · exact h

theorem fakeFetcher.Fetch_ok_marks (f : fakeFetcher) (url : String)
    (h : (f.Fetch url).1.err = none) : (f.Fetch url).2.cache.get url = true := by
  unfold fakeFetcher.Fetch at h ⊢
  split
  · rename_i hv
    simp [hv] at h
  · split
    · simp [Cache.get_set]
    · rename_i hv _ hl
      simp [hv, hl] at h

theorem fakeFetcher.fetchAll_visited (calls : List String) :
    ∀ (f : fakeFetcher) (url : String) (j : Nat), f.cache.get url = true →
      calls[j]? = some url →
      (f.fetchAll calls)[j]? = some ⟨"", [], some ("already visited " ++ url)⟩ := by
  induction calls with
  | nil => intro f url j _ hj; simp at hj
  | cons c cs ih =>
    intro f url j hv hj
    cases j with
    | zero =>
      simp at hj
      subst hj
      simp [fakeFetcher.fetchAll, fakeFetcher.Fetch_visited f c hv]
    | succ j =>
      simp at hj
      simpa [fakeFetcher.fetchAll] using ih (f.Fetch c).2 url j (f.Fetch_mono c url hv) hj

theorem fakeFetcher.successes_visited (calls : List String) :
    ∀ (f : fakeFetcher) (url : String), f.cache.get url = true →
      f.successes calls url = 0 := by
  induction calls with
  | nil => intro f url _; rfl
  | cons c cs ih =>
    intro f url hv
    have ih' := ih (f.Fetch c).2 url (f.Fetch_mono c url hv)
    unfold fakeFetcher.successes at ih' ⊢
    simp only [fakeFetcher.fetchAll, List.zip_cons_cons, List.filter_cons]
    by_cases hc : c = url
    · subst hc
      simp [fakeFetcher.Fetch_visited f c hv]
      simpa [fakeFetcher.Fetch_visited f c hv] using ih'
    · simp [hc]
      simpa using ih'

theorem fakeFetcher.successes_le_one (calls : List String) :
    ∀ (f : fakeFetcher) (url : String), f.successes calls url ≤ 1 := by
  induction calls with
  | nil => intro f url; simp [fakeFetcher.successes, fakeFetcher.fetchAll]
  | cons c cs ih =>
    intro f url
    have ih' := ih (f.Fetch c).2 url
    by_cases hc : c = url ∧ (f.Fetch c).1.err = none
    · obtain ⟨hc, he⟩ := hc
      subst hc
      have h0 := fakeFetcher.successes_visited cs (f.Fetch c).2 c (f.Fetch_ok_marks c he)
      unfold fakeFetcher.successes at h0 ⊢
      simp only [fakeFetcher.fetchAll, List.zip_cons_cons, List.filter_cons]
      simp [he, h0]
    · unfold fakeFetcher.successes at ih' ⊢
      simp only [fakeFetcher.fetchAll, List.zip_cons_cons, List.filter_cons]
      have : (decide (c = url) && decide ((f.Fetch c).1.err = none)) = false := by
        simpa using hc
      simp only [this]
      simpa using ih'

theorem fakeFetcher.fetchAll_after_ok (calls : List String) :
    ∀ (f : fakeFetcher) (url : String) (i j : Nat) (o : FetchOut), i < j →
      calls[i]? = some url → calls[j]? = some url →
      (f.fetchAll calls)[i]? = some o → o.err = none →
      (f.fetchAll calls)[j]? = some ⟨"", [], some ("already visited " ++ url)⟩ := by
  induction calls with
  | nil => intro f url i j o _ hi; simp at hi
  | cons c cs ih =>
    intro f url i j o hij hi hj ho he
    cases j with
    | zero => omega
    | succ j =>
      cases i with
      | zero =>
        simp at hi
        subst hi
        simp [fakeFetcher.fetchAll] at ho
        subst ho
        simp at hj
        simpa [fakeFetcher.fetchAll] using
          fakeFetcher.fetchAll_visited cs (f.Fetch c).2 c j (f.Fetch_ok_marks c he) hj
      | succ i =>
        simp at hi hj
        simp [fakeFetcher.fetchAll] at ho
        simpa [fakeFetcher.fetchAll] using
          ih (f.Fetch c).2 url i j o (by omega) hi hj ho he

/-! ### The effects of one `Crawl` call -/

theorem spawnLoop_eq_flatMap (depth : Int) (l : List String) :
    spawnLoop depth l = l.flatMap (fun u => [Action.send 1, Action.go u (depth - 1)]) := by
  induction l with
  | nil => rfl
  | cons u rest ih => simp [spawnLoop, ih]

theorem spawnLoop_length (depth : Int) (l : List String) :
    (spawnLoop depth l).length = 2 * l.length := by
  induction l with
  | nil => rfl
  | cons u rest ih => simp [spawnLoop, ih]; omega

theorem spawnLoop_count_deregister (depth : Int) (l : List String) :
    (spawnLoop depth l).count (Action.send (-1)) = 0 := by
  induction l with
  | nil => rfl
  | cons u rest ih => simp [spawnLoop, ih, List.count_cons]

theorem spawnLoop_count_register (depth : Int) (l : List String) :
    (spawnLoop depth l).count (Action.send 1) = l.length := by
  induction l with
  | nil => rfl
  | cons u rest ih => simp [spawnLoop, ih, List.count_cons]

theorem spawnLoop_spawned (depth : Int) (l : List String) :
    (spawnLoop depth l).flatMap Action.spawned =
      l.map (fun u => CrawlTask.start u (depth - 1)) := by
  induction l with
  | nil => rfl
  | cons u rest ih => simp [spawnLoop, ih, Action.spawned]

theorem Crawl_depth_le (σ : Type) (F : Fetcher σ) (url : String) (depth : Int) (f : σ)
    (h : depth ≤ 0) : Crawl F url depth f = ([Action.send (-1)], f) := by
  simp [Crawl, h]

theorem Crawl_err (σ : Type) (F : Fetcher σ) (url : String) (depth : Int) (f : σ)
    (e : String) (h : 0 < depth) (he : (F.Fetch f url).1.err = some e) :
    Crawl F url depth f =
      ([Action.fetchCall url, Action.println e, Action.send (-1)], (F.Fetch f url).2) := by
  have h' : ¬ depth ≤ 0 := by omega
  simp [Crawl, h', he]

theorem Crawl_ok (σ : Type) (F : Fetcher σ) (url : String) (depth : Int) (f : σ)
    (h : 0 < depth) (he : (F.Fetch f url).1.err = none) :
    Crawl F url depth f =
      (Action.fetchCall url :: Action.printFound url (F.Fetch f url).1.body ::
        (spawnLoop depth (F.Fetch f url).1.urls ++ [Action.send (-1)]),
       (F.Fetch f url).2) := by
  have h' : ¬ depth ≤ 0 := by omega
  simp [Crawl, h', he]

theorem CrawlTask.run_ranging (σ : Type) (F : Fetcher σ) (url : String) (depth : Int)
    (f : σ) (rest : List String) :
    ∀ fuel : Nat, 2 * rest.length + 1 ≤ fuel →
      CrawlTask.run F fuel (.ranging url depth rest) f =
        (spawnLoop depth rest ++ [Action.send (-1)], .done url depth, f) := by
  induction rest with
  | nil =>
    intro fuel h
    obtain ⟨k, rfl⟩ : ∃ k, fuel = k + 1 := ⟨fuel - 1, by simp at h; omega⟩
    cases k <;> simp [CrawlTask.run, CrawlTask.step, spawnLoop]
  | cons u rest ih =>
    intro fuel h
    obtain ⟨k, rfl⟩ : ∃ k, fuel = k + 2 := ⟨fuel - 2, by simp at h; omega⟩
    have hk : 2 * rest.length + 1 ≤ k := by simp at h; omega
    simp [CrawlTask.run, CrawlTask.step, spawnLoop, ih k hk]

/-- The control-state machine, run alone with enough fuel, performs exactly the
effects of `Crawl`, ends in `done` and leaves the same fetcher state. -/
theorem CrawlTask.run_start (σ : Type) (F : Fetcher σ) (url : String) (depth : Int)
    (f : σ) (fuel : Nat) (h : (Crawl F url depth f).1.length ≤ fuel) :
    CrawlTask.run F fuel (.start url depth) f =
      ((Crawl F url depth f).1, .done url depth, (Crawl F url depth f).2) := by
  by_cases hd : depth ≤ 0
  · rw [Crawl_depth_le σ F url depth f hd] at h ⊢
    obtain ⟨k, rfl⟩ : ∃ k, fuel = k + 1 := ⟨fuel - 1, by simp at h; omega⟩
    cases k <;> simp [CrawlTask.run, CrawlTask.step, hd]
  · have hd' : 0 < depth := by omega
    cases he : (F.Fetch f url).1.err with
    | some e =>
      rw [Crawl_err σ F url depth f e hd' he] at h ⊢
      obtain ⟨k, rfl⟩ : ∃ k, fuel = k + 3 := ⟨fuel - 3, by simp at h; omega⟩
      cases k <;> simp [CrawlTask.run, CrawlTask.step, hd, he]
    | none =>
      rw [Crawl_ok σ F url depth f hd' he] at h ⊢
      obtain ⟨k, rfl⟩ : ∃ k, fuel = k + 2 := ⟨fuel - 2, by simp at h; omega⟩
      have hk : 2 * (F.Fetch f url).1.urls.length + 1 ≤ k := by
        simp [spawnLoop_length] at h; omega
      simp [CrawlTask.run, CrawlTask.step, hd, he,
        CrawlTask.run_ranging σ F url depth (F.Fetch f url).2 (F.Fetch f url).1.urls k hk]

/-! ### The interleaving semantics -/

theorem step_task_inv {σ : Type} (F : Fetcher σ) (s s' : State σ) (i : Nat)
    (h : step F s (.task i) = some s') :
    ∃ (t : CrawlTask) (a : Action) (t' : CrawlTask) (f' : σ),
      s.mainDone = false ∧ s.tasks[i]? = some t ∧
      CrawlTask.step F s.fetcher t = some (a, t', f') ∧
      (a.isSend = true → 0 < s.crawlCount) ∧
      s' = { fetcher := f', tasks := s.tasks.set i t' ++ a.spawned,
             crawlCount := s.crawlCount + a.delta, mainDone := false,
             log := s.log ++ [(i, a)] } := by
  simp only [step] at h
  split at h
  · exact absurd h (by simp)
  · rename_i hm
    split at h
    · exact absurd h (by simp)
    · rename_i t ht
      split at h
      · exact absurd h (by simp)
      · rename_i a t' f' hs
        split at h
        · exact absurd h (by simp)
        · rename_i hg
          refine ⟨t, a, t', f', by simpa using hm, ht, hs, ?_, ?_⟩
          · intro ha
            have := not_and.mp hg ha
            omega
          · simpa using h.symm

theorem step_main_inv {σ : Type} (F : Fetcher σ) (s s' : State σ)
    (h : step F s .mainReturn = some s') :
    s.mainDone = false ∧ s.crawlCount ≤ 0 ∧ s' = { s with mainDone := true } := by
  simp only [step] at h
  split at h
  · rename_i hc
    exact ⟨hc.1, hc.2, by simpa using h.symm⟩
  · exact absurd h (by simp)

theorem exec_append {σ : Type} (F : Fetcher σ) (cs₁ cs₂ : List Choice) :
    ∀ (s₀ s₁ s₂ : State σ), exec F s₀ cs₁ = some s₁ → exec F s₁ cs₂ = some s₂ →
      exec F s₀ (cs₁ ++ cs₂) = some s₂ := by
  induction cs₁ with
  | nil => intro s₀ s₁ s₂ h₁ h₂; simp [exec] at h₁; subst h₁; simpa using h₂
  | cons c cs ih =>
    intro s₀ s₁ s₂ h₁ h₂
    simp only [exec, List.cons_append] at h₁ ⊢
    cases hs : step F s₀ c with
    | none => simp [hs] at h₁
    | some s => simp only [hs] at h₁ ⊢; exact ih s s₁ s₂ h₁ h₂

theorem Reachable.refl {σ : Type} (F : Fetcher σ) (s : State σ) : Reachable F s s :=
  ⟨[], rfl⟩

theorem Reachable.step {σ : Type} (F : Fetcher σ) (s₀ s s' : State σ) (c : Choice)
    (h : Reachable F s₀ s) (hs : Crawler.step F s c = some s') : Reachable F s₀ s' := by
  obtain ⟨cs, hcs⟩ := h
  exact ⟨cs ++ [c], exec_append F cs [c] s₀ s s' hcs (by simp [exec, hs])⟩

/-- Induction over the reachable states. -/
theorem Reachable.induction {σ : Type} (F : Fetcher σ) (P : State σ → Prop)
    (hstep : ∀ (s s' : State σ) (c : Choice), P s → Crawler.step F s c = some s' → P s') :
    ∀ (s₀ s : State σ), P s₀ → Reachable F s₀ s → P s := by
  intro s₀ s h0 ⟨cs, hcs⟩
  induction cs generalizing s₀ with
  | nil => simp [exec] at hcs; subst hcs; exact h0
  | cons c cs ih =>
    simp only [exec] at hcs
    cases hs : Crawler.step F s₀ c with
    | none => simp [hs] at hcs
    | some s₁ => simp only [hs] at hcs; exact ih s₁ (hstep s₀ s₁ c h0 hs) hcs

theorem sum_map_set {α : Type} (g : α → Int) (l : List α) :
    ∀ (i : Nat) (t t' : α), l[i]? = some t →
      ((l.set i t').map g).sum = (l.map g).sum - g t + g t' := by
  induction l with
  | nil => intro i t t' h; simp at h
  | cons a l ih =>
    intro i t t' h
    cases i with
    | zero =>
      simp at h
      subst h
      simp only [List.set_cons_zero, List.map_cons, List.sum_cons]
      omega
    | succ i =>
      simp only [List.getElem?_cons_succ] at h
      simp only [List.set_cons_succ, List.map_cons, List.sum_cons, ih i t t' h]
      omega

/-- Accounting: when every effect of a goroutine balances the weights, the
account is the same in every reachable state. -/
theorem account_invariant {σ : Type} (F : Fetcher σ) (g : CrawlTask → Int) (c : Int)
    (φ : σ → Int) (h : Action → Int)
    (hstep : ∀ (f : σ) (t : CrawlTask) (a : Action) (t' : CrawlTask) (f' : σ),
      CrawlTask.step F f t = some (a, t', f') →
      g t' + (a.spawned.map g).sum + c * a.delta + φ f' = g t + h a + φ f)
    (s₀ s : State σ) (hr : Reachable F s₀ s) :
    account g c φ h s = account g c φ h s₀ := by
  refine Reachable.induction F (fun s => account g c φ h s = account g c φ h s₀) ?_ s₀ s rfl hr
  intro s s' ch ih hs
  rw [← ih]
  cases ch with
  | mainReturn =>
    obtain ⟨_, _, rfl⟩ := step_main_inv F s s' hs
    rfl
  | task i =>
    obtain ⟨t, a, t', f', _, ht, hst, _, rfl⟩ := step_task_inv F s s' i hs
    have hb := hstep s.fetcher t a t' f' hst
    simp only [account, List.map_append, List.sum_append, sum_map_set g s.tasks i t t' ht,
      List.map_cons, List.map_nil, List.sum_cons, List.sum_nil]
    linarith [mul_add c s.crawlCount a.delta]

theorem CrawlTask.step_cases {σ : Type} (F : Fetcher σ) (f : σ) (t : CrawlTask)
    (a : Action) (t' : CrawlTask) (f' : σ) (h : CrawlTask.step F f t = some (a, t', f')) :
    (∃ url depth, depth ≤ 0 ∧ t = .start url depth ∧ a = Action.send (-1) ∧
      t' = .done url depth ∧ f' = f) ∨
    (∃ url depth, 0 < depth ∧ t = .start url depth ∧ a = Action.fetchCall url ∧
      t' = .fetched url depth (F.Fetch f url).1 ∧ f' = (F.Fetch f url).2) ∨
    (∃ url depth out e, out.err = some e ∧ t = .fetched url depth out ∧
      a = Action.println e ∧ t' = .returning url depth ∧ f' = f) ∨
    (∃ url depth out, out.err = none ∧ t = .fetched url depth out ∧
      a = Action.printFound url out.body ∧ t' = .ranging url depth out.urls ∧ f' = f) ∨
    (∃ url depth, t = .ranging url depth [] ∧ a = Action.send (-1) ∧
      t' = .done url depth ∧ f' = f) ∨
    (∃ url depth u rest, t = .ranging url depth (u :: rest) ∧ a = Action.send 1 ∧
      t' = .spawning url depth u rest ∧ f' = f) ∨
    (∃ url depth u rest, t = .spawning url depth u rest ∧ a = Action.go u (depth - 1) ∧
      t' = .ranging url depth rest ∧ f' = f) ∨
    (∃ url depth, t = .returning url depth ∧ a = Action.send (-1) ∧
      t' = .done url depth ∧ f' = f) := by
  cases t with
  | start url depth =>
    by_cases hd : depth ≤ 0
    · simp [CrawlTask.step, hd] at h
      obtain ⟨rfl, rfl, rfl⟩ := h
      exact Or.inl ⟨url, depth, hd, rfl, rfl, rfl, rfl⟩
    · simp [CrawlTask.step, hd] at h
      obtain ⟨rfl, rfl, rfl⟩ := h
      exact Or.inr (Or.inl ⟨url, depth, by omega, rfl, rfl, rfl, rfl⟩)
  | fetched url depth out =>
    cases he : out.err with
    | some e =>
      simp [CrawlTask.step, he] at h
      obtain ⟨rfl, rfl, rfl⟩ := h
      exact Or.inr (Or.inr (Or.inl ⟨url, depth, out, e, he, rfl, rfl, rfl, rfl⟩))
    | none =>
      simp [CrawlTask.step, he] at h
      obtain ⟨rfl, rfl, rfl⟩ := h
      exact Or.inr (Or.inr (Or.inr (Or.inl ⟨url, depth, out, he, rfl, rfl, rfl, rfl⟩)))
  | ranging url depth rest =>
    cases rest with
    | nil =>
      simp [CrawlTask.step] at h
      obtain ⟨rfl, rfl, rfl⟩ := h
      exact Or.inr (Or.inr (Or.inr (Or.inr (Or.inl ⟨url, depth, rfl, rfl, rfl, rfl⟩))))
    | cons u rest =>
      simp [CrawlTask.step] at h
      obtain ⟨rfl, rfl, rfl⟩ := h
      exact Or.inr (Or.inr (Or.inr (Or.inr (Or.inr (Or.inl
        ⟨url, depth, u, rest, rfl, rfl, rfl, rfl⟩)))))
  | spawning url depth u rest =>
    simp [CrawlTask.step] at h
    obtain ⟨rfl, rfl, rfl⟩ := h
    exact Or.inr (Or.inr (Or.inr (Or.inr (Or.inr (Or.inr (Or.inl
      ⟨url, depth, u, rest, rfl, rfl, rfl, rfl⟩))))))
  | returning url depth =>
    simp [CrawlTask.step] at h
    obtain ⟨rfl, rfl, rfl⟩ := h
    exact Or.inr (Or.inr (Or.inr (Or.inr (Or.inr (Or.inr (Or.inr
      ⟨url, depth, rfl, rfl, rfl, rfl⟩))))))
  | done url depth => simp [CrawlTask.step] at h

theorem sum_map_indicator {α : Type} (p : α → Bool) (l : List α) :
    (l.map (fun x => if p x = true then (1 : Int) else 0)).sum = (l.countP p : Int) := by
  induction l with
  | nil => rfl
  | cons a l ih =>
    by_cases h : p a = true
    · simp [List.countP_cons, h, ih]; omega
    · simp [List.countP_cons, h, ih]

theorem sum_map_const_one {α : Type} (l : List α) :
    (l.map (fun _ => (1 : Int))).sum = (l.length : Int) := by
  induction l with
  | nil => rfl
  | cons a l ih => simp [ih]; omega

theorem sum_map_pendingUnits {σ : Type} (s : State σ) :
    (s.tasks.map (fun t => (t.pendingUnits : Int))).sum = (pending s : Int) := by
  have h1 : (fun t : CrawlTask => (t.pendingUnits : Int)) =
      fun t => (if (!t.isDone) = true then (1 : Int) else 0) +
        (if t.isSpawning = true then (1 : Int) else 0) := by
    funext t
    cases t <;> rfl
  rw [h1, List.sum_map_add, sum_map_indicator (fun t : CrawlTask => !t.isDone),
    sum_map_indicator CrawlTask.isSpawning]
  simp [pending]

/-- In every reachable state `crawlCount` is the number of pending units. -/
theorem crawlCount_eq_pending {σ : Type} (F : Fetcher σ) (root : String) (depth : Int)
    (f : σ) (s : State σ) (h : Reachable F (initState root depth f) s) :
    s.crawlCount = (pending s : Int) := by
  have hacc := account_invariant F (fun t => (t.pendingUnits : Int)) (-1) (fun _ => 0)
    (fun _ => 0) (by
      intro f t a t' f' hs
      rcases CrawlTask.step_cases F f t a t' f' hs with
        ⟨url, depth, _, rfl, rfl, rfl, rfl⟩ | ⟨url, depth, _, rfl, rfl, rfl, rfl⟩ |
        ⟨url, depth, out, e, _, rfl, rfl, rfl, rfl⟩ | ⟨url, depth, out, _, rfl, rfl, rfl, rfl⟩ |
        ⟨url, depth, rfl, rfl, rfl, rfl⟩ | ⟨url, depth, u, rest, rfl, rfl, rfl, rfl⟩ |
        ⟨url, depth, u, rest, rfl, rfl, rfl, rfl⟩ | ⟨url, depth, rfl, rfl, rfl, rfl⟩ <;>
      simp [CrawlTask.pendingUnits, Action.spawned, Action.delta])
    (initState root depth f) s h
  have h0 : pending (initState root depth f) = 1 := by
    simp [pending, initState, CrawlTask.isDone, CrawlTask.isSpawning]
  simp only [account, sum_map_pendingUnits, h0] at hacc
  simp [initState] at hacc
  omega

theorem sum_map_log (p : Action → Bool) (log : List (Nat × Action)) :
    (log.map (fun e => (fun a => if p a = true then (1 : Int) else 0) e.2)).sum =
      (log.countP (fun e => p e.2) : Int) :=
  sum_map_indicator (fun e => p e.2) log

/-- In every reachable state the goroutines created, plus the children already
registered and not yet created, are one more than the `+1` signals received. -/
theorem registers_eq {σ : Type} (F : Fetcher σ) (root : String) (depth : Int)
    (f : σ) (s : State σ) (h : Reachable F (initState root depth f) s) :
    s.tasks.length + s.tasks.countP CrawlTask.isSpawning = 1 + registers s.log := by
  have hacc := account_invariant F
    (fun t => 1 + (if t.isSpawning = true then (1 : Int) else 0)) 0 (fun _ => 0)
    (fun a => if (fun a => decide (a = Action.send 1)) a = true then (1 : Int) else 0) (by
      intro f t a t' f' hs
      rcases CrawlTask.step_cases F f t a t' f' hs with
        ⟨url, depth, _, rfl, rfl, rfl, rfl⟩ | ⟨url, depth, _, rfl, rfl, rfl, rfl⟩ |
        ⟨url, depth, out, e, _, rfl, rfl, rfl, rfl⟩ | ⟨url, depth, out, _, rfl, rfl, rfl, rfl⟩ |
        ⟨url, depth, rfl, rfl, rfl, rfl⟩ | ⟨url, depth, u, rest, rfl, rfl, rfl, rfl⟩ |
        ⟨url, depth, u, rest, rfl, rfl, rfl, rfl⟩ | ⟨url, depth, rfl, rfl, rfl, rfl⟩ <;>
      simp [CrawlTask.isSpawning, Action.spawned, Action.delta])
    (initState root depth f) s h
  simp only [account, List.sum_map_add, sum_map_const_one,
    sum_map_indicator CrawlTask.isSpawning,
    sum_map_log (fun a => decide (a = Action.send 1))] at hacc
  simp [initState, CrawlTask.isSpawning] at hacc
  unfold registers
  omega

/-- In every reachable state the finished goroutines are as many as the `-1`
signals received. -/
theorem deregisters_eq {σ : Type} (F : Fetcher σ) (root : String) (depth : Int)
    (f : σ) (s : State σ) (h : Reachable F (initState root depth f) s) :
    s.tasks.countP CrawlTask.isDone = deregisters s.log := by
  have hacc := account_invariant F
    (fun t => if t.isDone = true then (1 : Int) else 0) 0 (fun _ => 0)
    (fun a => if (fun a => decide (a = Action.send (-1))) a = true then (1 : Int) else 0) (by
      intro f t a t' f' hs
      rcases CrawlTask.step_cases F f t a t' f' hs with
        ⟨url, depth, _, rfl, rfl, rfl, rfl⟩ | ⟨url, depth, _, rfl, rfl, rfl, rfl⟩ |
        ⟨url, depth, out, e, _, rfl, rfl, rfl, rfl⟩ | ⟨url, depth, out, _, rfl, rfl, rfl, rfl⟩ |
        ⟨url, depth, rfl, rfl, rfl, rfl⟩ | ⟨url, depth, u, rest, rfl, rfl, rfl, rfl⟩ |
        ⟨url, depth, u, rest, rfl, rfl, rfl, rfl⟩ | ⟨url, depth, rfl, rfl, rfl, rfl⟩ <;>
      simp [CrawlTask.isDone, Action.spawned, Action.delta])
    (initState root depth f) s h
  simp only [account, sum_map_indicator CrawlTask.isDone,
    sum_map_log (fun a => decide (a = Action.send (-1)))] at hacc
  simp [initState, CrawlTask.isDone] at hacc
  unfold deregisters
  omega

/-- In every reachable state the goroutines created are the root and one per
executed `go` statement. -/
theorem spawns_eq {σ : Type} (F : Fetcher σ) (root : String) (depth : Int)
    (f : σ) (s : State σ) (h : Reachable F (initState root depth f) s) :
    s.tasks.length = 1 + spawns s.log := by
  have hacc := account_invariant F (fun _ => (1 : Int)) 0 (fun _ => 0)
    (fun a => if Action.isGo a = true then (1 : Int) else 0) (by
      intro f t a t' f' hs
      rcases CrawlTask.step_cases F f t a t' f' hs with
        ⟨url, depth, _, rfl, rfl, rfl, rfl⟩ | ⟨url, depth, _, rfl, rfl, rfl, rfl⟩ |
        ⟨url, depth, out, e, _, rfl, rfl, rfl, rfl⟩ | ⟨url, depth, out, _, rfl, rfl, rfl, rfl⟩ |
        ⟨url, depth, rfl, rfl, rfl, rfl⟩ | ⟨url, depth, u, rest, rfl, rfl, rfl, rfl⟩ |
        ⟨url, depth, u, rest, rfl, rfl, rfl, rfl⟩ | ⟨url, depth, rfl, rfl, rfl, rfl⟩ <;>
      simp [Action.isGo, Action.spawned, Action.delta])
    (initState root depth f) s h
  simp only [account, sum_map_const_one, sum_map_log Action.isGo] at hacc
  simp [initState] at hacc
  unfold spawns
  omega

/-- Once `main` has returned, `crawlCount` is not positive. -/
theorem mainDone_crawlCount {σ : Type} (F : Fetcher σ) (s₀ s : State σ)
    (h0 : s₀.mainDone = false) (h : Reachable F s₀ s) :
    s.mainDone = true → s.crawlCount ≤ 0 := by
  refine Reachable.induction F (fun s => s.mainDone = true → s.crawlCount ≤ 0) ?_ s₀ s
    (by simp [h0]) h
  intro s s' c _ hs
  cases c with
  | mainReturn =>
    obtain ⟨_, hc, rfl⟩ := step_main_inv F s s' hs
    exact fun _ => hc
  | task i =>
    obtain ⟨t, a, t', f', _, _, _, _, rfl⟩ := step_task_inv F s s' i hs
    simp

theorem pending_eq_zero_iff {σ : Type} (s : State σ) :
    pending s = 0 ↔ ∀ t ∈ s.tasks, t.isDone = true := by
  unfold pending
  constructor
  · intro h t ht
    have h1 : s.tasks.countP (fun t => !t.isDone) = 0 := by omega
    have := List.countP_eq_zero.mp h1 t ht
    simpa using this
  · intro h
    have h1 : s.tasks.countP (fun t => !t.isDone) = 0 :=
      List.countP_eq_zero.mpr (fun t ht => by simp [h t ht])
    have h2 : s.tasks.countP CrawlTask.isSpawning = 0 :=
      List.countP_eq_zero.mpr (fun t ht => by
        have := h t ht
        cases t <;> simp_all [CrawlTask.isDone, CrawlTask.isSpawning])
    omega

set_option maxRecDepth 100000 in
theorem mainFinal_reachable : Reachable fakeFetcher.asFetcher main mainFinal :=
  ⟨mainSchedule, by decide⟩

set_option maxRecDepth 100000 in
theorem mainFinal_summary :
    (mainFinal.mainDone, mainFinal.tasks.length, registers mainFinal.log,
      deregisters mainFinal.log, mainFinal.crawlCount) = (true, 11, 10, 11, 0) := by
  decide

/-! ### Termination -/

theorem maxLinks_lookup (urls : List (String × fakeResult)) (url : String)
    (res : fakeResult) (h : urls.lookup url = some res) :
    res.urls.length ≤ maxLinks urls := by
  induction urls with
  | nil => simp at h
  | cons p rest ih =>
    obtain ⟨k, r⟩ := p
    by_cases hk : url == k
    · simp [List.lookup, hk] at h
      subst h
      simp [maxLinks]
    · simp [List.lookup, hk] at h
      have := ih h
      simp [maxLinks]
      omega

theorem fakeFetcher.Fetch_links_le (f : fakeFetcher) (url : String) :
    (f.Fetch url).1.urls.length ≤ maxLinks f.urls := by
  unfold fakeFetcher.Fetch
  split
  · simp
  · split
    · rename_i res hr
      exact maxLinks_lookup f.urls url res hr
    · simp

theorem sum_map_set_nat {α : Type} (g : α → Nat) (l : List α) :
    ∀ (i : Nat) (t t' : α), l[i]? = some t →
      ((l.set i t').map g).sum + g t = (l.map g).sum + g t' := by
  induction l with
  | nil => intro i t t' h; simp at h
  | cons a l ih =>
    intro i t t' h
    cases i with
    | zero =>
      simp at h
      subst h
      simp only [List.set_cons_zero, List.map_cons, List.sum_cons]
      omega
    | succ i =>
      simp only [List.getElem?_cons_succ] at h
      have := ih i t t' h
      simp only [List.set_cons_succ, List.map_cons, List.sum_cons]
      omega

theorem CrawlTask.step_lowers_potential (f : fakeFetcher) (t : CrawlTask) (a : Action)
    (t' : CrawlTask) (f' : fakeFetcher)
    (h : CrawlTask.step fakeFetcher.asFetcher f t = some (a, t', f')) :
    f'.urls = f.urls ∧
    CrawlTask.potential (maxLinks f.urls) t' +
      (a.spawned.map (CrawlTask.potential (maxLinks f.urls))).sum + 1 ≤
      CrawlTask.potential (maxLinks f.urls) t := by
  rcases CrawlTask.step_cases fakeFetcher.asFetcher f t a t' f' h with
    ⟨url, depth, hd, rfl, rfl, rfl, rfl⟩ | ⟨url, depth, hd, rfl, rfl, rfl, rfl⟩ |
    ⟨url, depth, out, e, he, rfl, rfl, rfl, rfl⟩ | ⟨url, depth, out, he, rfl, rfl, rfl, rfl⟩ |
    ⟨url, depth, rfl, rfl, rfl, rfl⟩ | ⟨url, depth, u, rest, rfl, rfl, rfl, rfl⟩ |
    ⟨url, depth, u, rest, rfl, rfl, rfl, rfl⟩ | ⟨url, depth, rfl, rfl, rfl, rfl⟩
  · have h0 : depth.toNat = 0 := by omega
    simp [CrawlTask.potential, Action.spawned, h0, weight]
  · refine ⟨fakeFetcher.Fetch_urls f url, ?_⟩
    have h1 : depth.toNat = (depth - 1).toNat + 1 := by omega
    have hl := fakeFetcher.Fetch_links_le f url
    have hm := Nat.mul_le_mul_right (2 + weight (maxLinks f.urls) (depth - 1).toNat) hl
    simp only [fakeFetcher.asFetcher, CrawlTask.potential, Action.spawned, h1, weight,
      List.map_nil, List.sum_nil]
    cases (f.Fetch url).1.err with
    | some e => simp only []; omega
    | none => simp only []; omega
  · simp [CrawlTask.potential, Action.spawned, he]
  · simp [CrawlTask.potential, Action.spawned, he]
    omega
  · simp [CrawlTask.potential, Action.spawned]
  · simp [CrawlTask.potential, Action.spawned, Nat.succ_mul]
    omega
  · simp [CrawlTask.potential, Action.spawned]
    omega
  · simp [CrawlTask.potential, Action.spawned]

/-- Every step of the program lowers the potential and keeps the `urls` map. -/
theorem step_potential (s s' : State fakeFetcher) (c : Choice)
    (h : step fakeFetcher.asFetcher s c = some s') :
    s'.fetcher.urls = s.fetcher.urls ∧ potential s' + 1 ≤ potential s := by
  cases c with
  | mainReturn =>
    obtain ⟨hm, _, rfl⟩ := step_main_inv _ s s' h
    simp [potential, hm]
  | task i =>
    obtain ⟨t, a, t', f', hm, ht, hst, _, rfl⟩ := step_task_inv _ s s' i h
    obtain ⟨hu, hp⟩ := CrawlTask.step_lowers_potential s.fetcher t a t' f' hst
    refine ⟨hu, ?_⟩
    have hs := sum_map_set_nat (CrawlTask.potential (maxLinks s.fetcher.urls)) s.tasks i t t' ht
    simp only [potential, hu, hm, List.map_append, List.sum_append]
    simp only [Bool.false_eq_true, if_false]
    omega

theorem exec_potential (cs : List Choice) :
    ∀ (s₀ s : State fakeFetcher), exec fakeFetcher.asFetcher s₀ cs = some s →
      cs.length + potential s ≤ potential s₀ ∧
      s.tasks.length ≤ s₀.tasks.length + cs.length := by
  induction cs with
  | nil => intro s₀ s h; simp [exec] at h; subst h; simp
  | cons c cs ih =>
    intro s₀ s h
    simp only [exec] at h
    cases hs : step fakeFetcher.asFetcher s₀ c with
    | none => simp [hs] at h
    | some s₁ =>
      simp only [hs] at h
      obtain ⟨h1, h2⟩ := ih s₁ s h
      have hp := (step_potential s₀ s₁ c hs).2
      have hl : s₁.tasks.length ≤ s₀.tasks.length + 1 := by
        cases c with
        | mainReturn =>
          obtain ⟨_, _, rfl⟩ := step_main_inv _ s₀ s₁ hs
          simp
        | task i =>
          obtain ⟨t, a, t', f', _, _, _, _, rfl⟩ := step_task_inv _ s₀ s₁ i hs
          cases a <;> simp [Action.spawned]
      simp only [List.length_cons]
      omega

theorem CrawlTask.step_isSome {σ : Type} (F : Fetcher σ) (f : σ) (t : CrawlTask)
    (h : t.isDone = false) : ∃ a t' f', CrawlTask.step F f t = some (a, t', f') := by
  cases t with
  | start url depth =>
    by_cases hd : depth ≤ 0
    · exact ⟨_, _, _, by simp only [CrawlTask.step, hd, if_true]; rfl⟩
    · exact ⟨_, _, _, by simp only [CrawlTask.step, hd, if_false]; rfl⟩
  | fetched url depth out =>
    cases he : out.err with
    | some e => exact ⟨_, _, _, by simp only [CrawlTask.step, he]; rfl⟩
    | none => exact ⟨_, _, _, by simp only [CrawlTask.step, he]; rfl⟩
  | ranging url depth rest =>
    cases rest with
    | nil => exact ⟨_, _, _, rfl⟩
    | cons u rest => exact ⟨_, _, _, rfl⟩
  | spawning url depth u rest => exact ⟨_, _, _, rfl⟩
  | returning url depth => exact ⟨_, _, _, rfl⟩
  | done url depth => simp [CrawlTask.isDone] at h

/-- Deadlock freedom: while `main` has not returned, some step is enabled. -/
theorem progress {σ : Type} (F : Fetcher σ) (root : String) (depth : Int) (f : σ)
    (s : State σ) (h : Reachable F (initState root depth f) s)
    (hm : s.mainDone = false) : ∃ c s', step F s c = some s' := by
  by_cases hc : s.crawlCount ≤ 0
  · exact ⟨Choice.mainReturn, _, by simp only [step, hm, hc, and_self, if_true]; rfl⟩
  · have hp := crawlCount_eq_pending F root depth f s h
    have hne : ¬ ∀ t ∈ s.tasks, t.isDone = true := by
      intro hall
      have := (pending_eq_zero_iff s).mpr hall
      omega
    push_neg at hne
    obtain ⟨t, ht, hd⟩ := hne
    have hd' : t.isDone = false := by simpa using hd
    obtain ⟨i, hi⟩ := List.mem_iff_getElem?.mp ht
    obtain ⟨a, t', f', hst⟩ := CrawlTask.step_isSome F s.fetcher t hd'
    refine ⟨Choice.task i,
      { fetcher := f', tasks := s.tasks.set i t' ++ a.spawned,
        crawlCount := s.crawlCount + a.delta, mainDone := false,
        log := s.log ++ [(i, a)] }, ?_⟩
    simp only [step, hm, hi, hst]
    simp [hc]

/-- From every reachable state some schedule lets `main` return. -/
theorem completes (n : Nat) :
    ∀ (root : String) (depth : Int) (f : fakeFetcher) (s : State fakeFetcher),
      potential s ≤ n → Reachable fakeFetcher.asFetcher (initState root depth f) s →
      ∃ cs s', exec fakeFetcher.asFetcher s cs = some s' ∧ s'.mainDone = true := by
  induction n with
  | zero =>
    intro root depth f s hn _
    cases hm : s.mainDone with
    | true => exact ⟨[], s, rfl, hm⟩
    | false => simp [potential, hm] at hn
  | succ n ih =>
    intro root depth f s hn hr
    cases hm : s.mainDone with
    | true => exact ⟨[], s, rfl, hm⟩
    | false =>
      obtain ⟨c, s', hs⟩ := progress _ root depth f s hr hm
      have hp := (step_potential s s' c hs).2
      obtain ⟨cs, s'', he, hd⟩ := ih root depth f s' (by omega)
        (Reachable.step _ _ s s' c hr hs)
      exact ⟨c :: cs, s'', by simp only [exec, hs, he], hd⟩

theorem step_mainDone_none {σ : Type} (F : Fetcher σ) (s : State σ) (c : Choice)
    (hm : s.mainDone = true) : step F s c = none := by
  cases c <;> simp [step, hm]

/-! ### Error isolation -/

theorem fakeFetcher.Fetch_err_same (f : fakeFetcher) (url : String)
    (h : (f.Fetch url).1.err ≠ none) : (f.Fetch url).2 = f := by
  cases hv : f.cache.get url with
  | true => rw [fakeFetcher.Fetch_visited f url hv]
  | false =>
    cases hr : f.urls.lookup url with
    | none => rw [fakeFetcher.Fetch_missing f url hv hr]
    | some res =>
      rw [fakeFetcher.Fetch_found f url res hv hr] at h
      exact absurd rfl h

theorem fakeFetcher.Fetch_ok_lookup (f : fakeFetcher) (url : String)
    (h : (f.Fetch url).1.err = none) :
    ∃ r, f.urls.lookup url = some r ∧ (f.Fetch url).1.urls = r.urls ∧
      (f.Fetch url).1.body = r.body := by
  cases hv : f.cache.get url with
  | true =>
    rw [fakeFetcher.Fetch_visited f url hv] at h
    simp at h
  | false =>
    cases hr : f.urls.lookup url with
    | none =>
      rw [fakeFetcher.Fetch_missing f url hv hr] at h
      simp at h
    | some res =>
      rw [fakeFetcher.Fetch_found f url res hv hr]
      exact ⟨res, rfl, rfl, rfl⟩

theorem foundUrls_mono (log l : List (Nat × Action)) (X : String)
    (h : X ∈ foundUrls log) : X ∈ foundUrls (log ++ l) := by
  unfold foundUrls at h ⊢
  rw [List.filterMap_append]
  exact List.mem_append_left _ h

theorem Linked.log_mono (urls : List (String × fakeResult)) (root : String)
    (log l : List (Nat × Action)) (u : String) (h : Linked urls root log u) :
    Linked urls root (log ++ l) u := by
  rcases h with h | ⟨X, r, hX, hr, hu⟩
  · exact Or.inl h
  · exact Or.inr ⟨X, r, foundUrls_mono log l X hX, hr, hu⟩

theorem TaskOK.log_append (urls : List (String × fakeResult)) (log l : List (Nat × Action))
    (t : CrawlTask) (h : TaskOK urls log t) : TaskOK urls (log ++ l) t := by
  cases t with
  | start url depth => trivial
  | fetched url depth out => exact h
  | ranging url depth rest => exact ⟨foundUrls_mono log l url h.1, h.2⟩
  | spawning url depth u rest => exact ⟨foundUrls_mono log l url h.1, h.2⟩
  | returning url depth => trivial
  | done url depth => trivial

theorem mem_set_self {α : Type} (l : List α) :
    ∀ (i : Nat) (t t' : α), l[i]? = some t → t' ∈ l.set i t' := by
  induction l with
  | nil => intro i t t' h; simp at h
  | cons a l ih =>
    intro i t t' h
    cases i with
    | zero => simp
    | succ i =>
      simp only [List.getElem?_cons_succ] at h
      simp only [List.set_cons_succ, List.mem_cons]
      exact Or.inr (ih i t t' h)

theorem mem_set_or_eq {α : Type} (l : List α) (i : Nat) (t t' x : α)
    (ht : l[i]? = some t) (hx : x ∈ l) : x ∈ l.set i t' ∨ x = t := by
  obtain ⟨j, hj⟩ := List.mem_iff_getElem?.mp hx
  by_cases hij : i = j
  · subst hij
    rw [ht] at hj
    exact Or.inr (Option.some.inj hj).symm
  · refine Or.inl (List.getElem?_mem (n := j) ?_)
    rw [List.getElem?_set_ne hij]
    exact hj

theorem CrawlTask.step_isolated (urls : List (String × fakeResult)) (root : String)
    (log : List (Nat × Action)) (i : Nat) (f : fakeFetcher) (t : CrawlTask) (a : Action)
    (t' : CrawlTask) (f' : fakeFetcher) (hf : f.urls = urls) (hok : TaskOK urls log t)
    (h : CrawlTask.step fakeFetcher.asFetcher f t = some (a, t', f')) :
    t'.url = t.url ∧ TaskOK urls (log ++ [(i, a)]) t' ∧
    (∀ x ∈ a.spawned,
      Linked urls root (log ++ [(i, a)]) x.url ∧ TaskOK urls (log ++ [(i, a)]) x) ∧
    (∀ Y, a.fetchUrl = some Y → t'.url = Y) ∧
    (a.fetchUrl = none → ∀ Y, Y ∈ fetchedUrls (log ++ [(i, a)]) → Y ∈ fetchedUrls log) := by
  have hfu : ∀ (b : Action), b.fetchUrl = none →
      ∀ Y, Y ∈ fetchedUrls (log ++ [(i, b)]) → Y ∈ fetchedUrls log := by
    intro b hb Y hY
    simpa [fetchedUrls, List.filterMap_append, hb] using hY
  rcases CrawlTask.step_cases fakeFetcher.asFetcher f t a t' f' h with
    ⟨url, depth, hd, rfl, rfl, rfl, rfl⟩ | ⟨url, depth, hd, rfl, rfl, rfl, rfl⟩ |
    ⟨url, depth, out, e, he, rfl, rfl, rfl, rfl⟩ | ⟨url, depth, out, he, rfl, rfl, rfl, rfl⟩ |
    ⟨url, depth, rfl, rfl, rfl, rfl⟩ | ⟨url, depth, u, rest, rfl, rfl, rfl, rfl⟩ |
    ⟨url, depth, u, rest, rfl, rfl, rfl, rfl⟩ | ⟨url, depth, rfl, rfl, rfl, rfl⟩
  · exact ⟨rfl, trivial, by simp [Action.spawned], by simp [Action.fetchUrl], hfu _⟩
  · refine ⟨rfl, ?_, by simp [Action.spawned], by simp [Action.fetchUrl, CrawlTask.url],
      by simp [Action.fetchUrl]⟩
    intro he
    obtain ⟨r, hr, hu, _⟩ := fakeFetcher.Fetch_ok_lookup f url he
    exact ⟨r, hf ▸ hr, hu⟩
  · exact ⟨rfl, trivial, by simp [Action.spawned], by simp [Action.fetchUrl], hfu _⟩
  · refine ⟨rfl, ?_, by simp [Action.spawned], by simp [Action.fetchUrl], hfu _⟩
    obtain ⟨r, hr, hu⟩ := hok he
    refine ⟨?_, r, hr, fun v hv => hu ▸ hv⟩
    simp [foundUrls, List.filterMap_append, Action.foundUrl]
  · exact ⟨rfl, trivial, by simp [Action.spawned], by simp [Action.fetchUrl], hfu _⟩
  · refine ⟨rfl, ?_, by simp [Action.spawned], by simp [Action.fetchUrl], hfu _⟩
    obtain ⟨hfound, r, hr, hall⟩ := hok
    exact ⟨foundUrls_mono log _ url hfound, r, hr, hall u (by simp),
      fun v hv => hall v (by simp [hv])⟩
  · obtain ⟨hfound, r, hr, hu, hall⟩ := hok
    refine ⟨rfl, ⟨foundUrls_mono log _ url hfound, r, hr, hall⟩, ?_,
      by simp [Action.fetchUrl], hfu _⟩
    intro x hx
    simp only [Action.spawned, List.mem_singleton] at hx
    subst hx
    exact ⟨Or.inr ⟨url, r, foundUrls_mono log _ url hfound, hr, hu⟩, trivial⟩
  · exact ⟨rfl, trivial, by simp [Action.spawned], by simp [Action.fetchUrl], hfu _⟩

/-- The isolation invariant holds in every reachable state. -/
theorem isolated_invariant (urls : List (String × fakeResult))
    (visited : List (String × Bool)) (root : String) (depth : Int)
    (s : State fakeFetcher)
    (h : Reachable fakeFetcher.asFetcher (initState root depth ⟨urls, ⟨visited⟩⟩) s) :
    Isolated urls root s := by
  refine Reachable.induction fakeFetcher.asFetcher (Isolated urls root) ?_ _ s ?_ h
  · intro s s' c ih hs
    cases c with
    | mainReturn =>
      obtain ⟨_, _, rfl⟩ := step_main_inv _ s s' hs
      exact ih
    | task i =>
      obtain ⟨t, a, t', f', _, ht, hst, _, rfl⟩ := step_task_inv _ s s' i hs
      obtain ⟨hu, htasks, hfetch⟩ := ih
      have htm : t ∈ s.tasks := List.getElem?_mem ht
      obtain ⟨hLt, hOt⟩ := htasks t htm
      obtain ⟨hurl, hOt', hsp, hfc, hfn⟩ :=
        CrawlTask.step_isolated urls root s.log i s.fetcher t a t' f' hu hOt hst
      have hu' := (CrawlTask.step_lowers_potential s.fetcher t a t' f' hst).1
      have hkeep : ∀ x ∈ s.tasks, ∃ y ∈ s.tasks.set i t' ++ a.spawned, y.url = x.url := by
        intro x hx
        rcases mem_set_or_eq s.tasks i t t' x ht hx with hx' | rfl
        · exact ⟨x, List.mem_append_left _ hx', rfl⟩
        · exact ⟨t', List.mem_append_left _ (mem_set_self s.tasks i x t' ht), hurl⟩
      refine ⟨hu'.trans hu, ?_, ?_⟩
      · intro x hx
        rcases List.mem_append.mp hx with hx | hx
        · rcases List.mem_or_eq_of_mem_set hx with hx | rfl
          · obtain ⟨h1, h2⟩ := htasks x hx
            exact ⟨Linked.log_mono urls root s.log _ _ h1, TaskOK.log_append urls s.log _ x h2⟩
          · exact ⟨hurl ▸ Linked.log_mono urls root s.log _ _ hLt, hOt'⟩
        · exact hsp x hx
      · intro Y hY
        cases hfa : a.fetchUrl with
        | none =>
          obtain ⟨x, hx, hxu⟩ := hfetch Y (hfn hfa Y hY)
          obtain ⟨y, hy, hyu⟩ := hkeep x hx
          exact ⟨y, hy, hyu.trans hxu⟩
        | some Z =>
          simp only [fetchedUrls, List.filterMap_append, List.mem_append] at hY
          rcases hY with hY | hY
          · obtain ⟨x, hx, hxu⟩ := hfetch Y hY
            obtain ⟨y, hy, hyu⟩ := hkeep x hx
            exact ⟨y, hy, hyu.trans hxu⟩
          · simp [hfa] at hY
            subst hY
            exact ⟨t', List.mem_append_left _ (mem_set_self s.tasks i t t' ht), hfc Y hfa⟩
  · refine ⟨rfl, ?_, ?_⟩
    · intro t ht
      simp only [initState, List.mem_singleton] at ht
      subst ht
      exact ⟨Or.inl rfl, trivial⟩
    · intro Y hY
      simp [initState, fetchedUrls] at hY

/-- As long as no `found` line for `X` is printed, every goroutine crawls a url
that is reachable from the root along links of pages other than `X`. -/
theorem avoiding_invariant (urls : List (String × fakeResult))
    (visited : List (String × Bool)) (root : String) (depth : Int)
    (s : State fakeFetcher)
    (h : Reachable fakeFetcher.asFetcher (initState root depth ⟨urls, ⟨visited⟩⟩) s) :
    ∀ X, X ∉ foundUrls s.log → ∀ t ∈ s.tasks, ReachableAvoiding urls root X t.url := by
  have key : Reachable fakeFetcher.asFetcher (initState root depth ⟨urls, ⟨visited⟩⟩) s ∧
      ∀ X, X ∉ foundUrls s.log → ∀ t ∈ s.tasks, ReachableAvoiding urls root X t.url := by
    refine Reachable.induction fakeFetcher.asFetcher
      (fun s => Reachable fakeFetcher.asFetcher (initState root depth ⟨urls, ⟨visited⟩⟩) s ∧
        ∀ X, X ∉ foundUrls s.log → ∀ t ∈ s.tasks, ReachableAvoiding urls root X t.url)
      ?_ _ s ?_ h
    · intro s s' c ⟨hr, ih⟩ hs
      refine ⟨Reachable.step _ _ s s' c hr hs, ?_⟩
      cases c with
      | mainReturn =>
        obtain ⟨_, _, rfl⟩ := step_main_inv _ s s' hs
        exact ih
      | task i =>
        obtain ⟨t, a, t', f', _, ht, hst, _, rfl⟩ := step_task_inv _ s s' i hs
        obtain ⟨hu, htasks, _⟩ := isolated_invariant urls visited root depth s hr
        have htm : t ∈ s.tasks := List.getElem?_mem ht
        obtain ⟨_, hOt⟩ := htasks t htm
        obtain ⟨hurl, _, _, _, _⟩ :=
          CrawlTask.step_isolated urls root s.log i s.fetcher t a t' f' hu hOt hst
        intro X hX x hx
        have hX' : X ∉ foundUrls s.log := fun hm => hX (foundUrls_mono s.log _ X hm)
        rcases List.mem_append.mp hx with hx1 | hx2
        · rcases List.mem_or_eq_of_mem_set hx1 with hx3 | rfl
          · exact ih X hX' x hx3
          · rw [hurl]
            exact ih X hX' t htm
        · rcases CrawlTask.step_cases fakeFetcher.asFetcher s.fetcher t a t' f' hst with
            ⟨url, d, _, rfl, rfl, rfl, rfl⟩ | ⟨url, d, _, rfl, rfl, rfl, rfl⟩ |
            ⟨url, d, out, e, _, rfl, rfl, rfl, rfl⟩ | ⟨url, d, out, _, rfl, rfl, rfl, rfl⟩ |
            ⟨url, d, rfl, rfl, rfl, rfl⟩ | ⟨url, d, u, rest, rfl, rfl, rfl, rfl⟩ |
            ⟨url, d, u, rest, rfl, rfl, rfl, rfl⟩ | ⟨url, d, rfl, rfl, rfl, rfl⟩
          · simp [Action.spawned] at hx2
          · simp [Action.spawned] at hx2
          · simp [Action.spawned] at hx2
          · simp [Action.spawned] at hx2
          · simp [Action.spawned] at hx2
          · simp [Action.spawned] at hx2
          · simp only [Action.spawned, List.mem_singleton] at hx2
            subst hx2
            obtain ⟨hfound, r, hlook, hmem, _⟩ := hOt
            exact ReachableAvoiding.link url r u (ih X hX' _ htm)
              (fun he => hX' (he ▸ hfound)) hlook hmem
          · simp [Action.spawned] at hx2
    · exact ⟨Reachable.refl _ _, fun X _ t ht => by
        simp only [initState, List.mem_singleton] at ht
        subst ht
        exact ReachableAvoiding.root⟩
  exact key.2

/-! ### Exhaustive exploration -/

theorem lookup_map_erase (urls : List (String × fakeResult)) (url : String) :
    (urls.map (fun p => (p.1, p.2.erase))).lookup url =
      (urls.lookup url).map fakeResult.erase := by
  induction urls with
  | nil => rfl
  | cons p rest ih =>
    obtain ⟨k, r⟩ := p
    cases hk : (url == k) with
    | true => simp [List.lookup, hk]
    | false => simp [List.lookup, hk, ih]

theorem fakeFetcher.Fetch_erase (f : fakeFetcher) (url : String) :
    f.erase.Fetch url =
      (⟨"", (f.Fetch url).1.urls, (f.Fetch url).1.err⟩, (f.Fetch url).2.erase) := by
  cases hv : f.cache.get url with
  | true =>
    have hv' : f.erase.cache.get url = true := hv
    rw [fakeFetcher.Fetch_visited f url hv, fakeFetcher.Fetch_visited f.erase url hv']
  | false =>
    have hv' : f.erase.cache.get url = false := hv
    cases hr : f.urls.lookup url with
    | none =>
      have hr' : f.erase.urls.lookup url = none := by
        simp [fakeFetcher.erase, lookup_map_erase, hr]
      rw [fakeFetcher.Fetch_missing f url hv hr,
        fakeFetcher.Fetch_missing f.erase url hv' hr']
    | some res =>
      have hr' : f.erase.urls.lookup url = some res.erase := by
        simp [fakeFetcher.erase, lookup_map_erase, hr]
      rw [fakeFetcher.Fetch_found f url res hv hr,
        fakeFetcher.Fetch_found f.erase url res.erase hv' hr']
      rfl

theorem fakeFetcher.erase_idem (f : fakeFetcher) : f.erase.erase = f.erase := by
  simp [fakeFetcher.erase, fakeResult.erase]

theorem CrawlTask.erase_twice (t : CrawlTask) : t.erase.erase = t.erase := by
  cases t <;> rfl

theorem CrawlTask.step_commutes_erase (f : fakeFetcher) (t : CrawlTask) :
    CrawlTask.step fakeFetcher.asFetcher f.erase t.erase =
      (CrawlTask.step fakeFetcher.asFetcher f t).map
        (fun r => (r.1.erase, r.2.1.erase, r.2.2.erase)) := by
  cases t with
  | start url depth =>
    by_cases hd : depth ≤ 0
    · simp [CrawlTask.step, CrawlTask.erase, Action.erase, hd]
    · simp [CrawlTask.step, CrawlTask.erase, Action.erase, hd, fakeFetcher.asFetcher,
        fakeFetcher.Fetch_erase]
  | fetched url depth out =>
    cases he : out.err with
    | some e => simp [CrawlTask.step, CrawlTask.erase, Action.erase, he]
    | none => simp [CrawlTask.step, CrawlTask.erase, Action.erase, he]
  | ranging url depth rest =>
    cases rest <;> simp [CrawlTask.step, CrawlTask.erase, Action.erase]
  | spawning url depth u rest => simp [CrawlTask.step, CrawlTask.erase, Action.erase]
  | returning url depth => simp [CrawlTask.step, CrawlTask.erase, Action.erase]
  | done url depth => simp [CrawlTask.step, CrawlTask.erase]

theorem Action.erase_facts (a : Action) :
    a.erase.isSend = a.isSend ∧ a.erase.delta = a.delta ∧ a.erase.spawned = a.spawned := by
  cases a <;> exact ⟨rfl, rfl, rfl⟩

theorem Action.spawned_erase (a : Action) :
    a.spawned.map CrawlTask.erase = a.spawned := by
  cases a <;> rfl

theorem CrawlTask.erase_comp : CrawlTask.erase ∘ CrawlTask.erase = CrawlTask.erase :=
  funext CrawlTask.erase_twice

/-- Erasure commutes with the steps of the program. -/
theorem step_erase (s : State fakeFetcher) (c : Choice) :
    (step fakeFetcher.asFetcher s.erase c).map State.erase =
      (step fakeFetcher.asFetcher s c).map State.erase := by
  cases c with
  | mainReturn =>
    by_cases h : s.mainDone = false ∧ s.crawlCount ≤ 0
    · have h' : s.erase.mainDone = false ∧ s.erase.crawlCount ≤ 0 := h
      simp only [step, h, h', and_self, if_true, Option.map_some']
      simp [State.erase, fakeFetcher.erase_idem, CrawlTask.erase_twice]
    · have h' : ¬ (s.erase.mainDone = false ∧ s.erase.crawlCount ≤ 0) := h
      simp only [step, h, h', if_false, Option.map_none']
  | task i =>
    cases hm : s.mainDone with
    | true =>
      have hm' : s.erase.mainDone = true := hm
      simp [step, hm, hm']
    | false =>
      have hm' : s.erase.mainDone = false := hm
      have ht' : s.erase.tasks[i]? = (s.tasks[i]?).map CrawlTask.erase := by
        simp [State.erase]
      cases ht : s.tasks[i]? with
      | none =>
        rw [ht] at ht'
        simp [step, hm, hm', ht, ht']
      | some t =>
        rw [ht] at ht'
        have hst : CrawlTask.step fakeFetcher.asFetcher s.erase.fetcher t.erase = _ :=
          CrawlTask.step_commutes_erase s.fetcher t
        cases hs : CrawlTask.step fakeFetcher.asFetcher s.fetcher t with
        | none =>
          rw [hs] at hst
          simp only [step, hm, hm', ht, ht', hs, Option.map_some', Option.map_none'] at hst ⊢
          simp [hst]
        | some r =>
          obtain ⟨a, t', f'⟩ := r
          rw [hs] at hst
          obtain ⟨e1, e2, e3⟩ := Action.erase_facts a
          have hcc : s.erase.crawlCount = s.crawlCount := rfl
          simp only [Option.map_some'] at hst
          simp only [step, hm, hm', ht, ht', hs, hst, Option.map_some', e1, hcc]
          by_cases hg : a.isSend = true ∧ s.crawlCount ≤ 0
          · simp [hg]
          · simp only [hg, if_false, Bool.false_eq_true, Option.map_some']
            simp [State.erase, fakeFetcher.erase_idem, e2, e3, List.map_append,
              Action.spawned_erase, CrawlTask.erase_twice, CrawlTask.erase_comp]

theorem mem_foldr_insertNew (l : List (State fakeFetcher)) (x : State fakeFetcher)
    (h : x ∈ l) : x ∈ l.foldr insertNew [] := by
  induction l with
  | nil => simp at h
  | cons a l ih =>
    simp only [List.foldr_cons, insertNew]
    rcases List.mem_cons.mp h with rfl | h
    · split
      · assumption
      · simp
    · split
      · exact ih h
      · exact List.mem_cons_of_mem _ (ih h)

theorem mem_succs (s s' : State fakeFetcher) (c : Choice)
    (h : step fakeFetcher.asFetcher s c = some s') : s'.erase ∈ succs s.erase := by
  have he := step_erase s c
  rw [h] at he
  simp only [Option.map_some'] at he
  unfold succs
  rw [List.mem_filterMap]
  refine ⟨c, ?_, he⟩
  cases c with
  | mainReturn => simp
  | task i =>
    obtain ⟨t, _, _, _, _, ht, _⟩ := step_task_inv _ s s' i h
    have hi : i < s.tasks.length := by
      by_contra hn
      rw [List.getElem?_eq_none (by omega)] at ht
      simp at ht
    simp [State.erase, hi]

/-- A successful check covers every schedule from a state of `L`. -/
theorem checkLayers_sound (P : State fakeFetcher → Bool) (n : Nat) :
    ∀ (L : List (State fakeFetcher)), checkLayers P n L = true →
      ∀ (cs : List Choice) (s₀ s : State fakeFetcher), s₀.erase ∈ L →
        exec fakeFetcher.asFetcher s₀ cs = some s →
        cs.length < n ∧ P s.erase = true := by
  induction n with
  | zero =>
    intro L hL cs s₀ s h0 _
    simp [checkLayers] at hL
    subst hL
    simp at h0
  | succ n ih =>
    intro L hL cs s₀ s h0 he
    simp only [checkLayers, Bool.and_eq_true, List.all_eq_true] at hL
    cases cs with
    | nil =>
      simp [exec] at he
      subst he
      exact ⟨by simp, hL.1 _ h0⟩
    | cons c cs =>
      simp only [exec] at he
      cases hs : step fakeFetcher.asFetcher s₀ c with
      | none => simp [hs] at he
      | some s₁ =>
        simp only [hs] at he
        have hmem : s₁.erase ∈ nextLayer L :=
          mem_foldr_insertNew _ _
            (List.mem_flatMap.mpr ⟨s₀.erase, h0, mem_succs s₀ s₁ c hs⟩)
        obtain ⟨h1, h2⟩ := ih (nextLayer L) hL.2 cs s₁ s hmem he
        exact ⟨by simp; omega, h2⟩

/-! ### Accounting of `Fetch` calls and `found` lines -/

theorem count_filterMap_log (f : Action → Option String) (u : String)
    (log : List (Nat × Action)) :
    (log.filterMap (fun e => f e.2)).count u =
      log.countP (fun e => decide (f e.2 = some u)) := by
  induction log with
  | nil => rfl
  | cons e log ih =>
    cases hf : f e.2 with
    | none => simp [List.filterMap_cons, List.countP_cons, hf, ih]
    | some v =>
      by_cases hv : v = u
      · simp [List.filterMap_cons, List.countP_cons, hf, ih, hv]
      · simp [List.filterMap_cons, List.countP_cons, List.count_cons, hf, ih, hv]

theorem sum_map_neg_indicator {α : Type} (p : α → Bool) (l : List α) :
    (l.map (fun x => -(if p x = true then (1 : Int) else 0))).sum = -(l.countP p : Int) := by
  induction l with
  | nil => rfl
  | cons a l ih =>
    by_cases h : p a = true <;> simp [List.countP_cons, h, ih]

/-- In every reachable state the `Fetch` calls on `u` are as many as the
goroutines that crawl `u` at a positive depth and are past the call. -/
theorem fetchCalls_eq {σ : Type} (F : Fetcher σ) (root : String) (depth : Int)
    (f : σ) (u : String) (s : State σ) (h : Reachable F (initState root depth f) s) :
    (fetchedUrls s.log).count u = s.tasks.countP (CrawlTask.hasFetched u) := by
  have hacc := account_invariant F
    (fun t => if CrawlTask.hasFetched u t = true then (1 : Int) else 0) 0 (fun _ => 0)
    (fun a => if (fun a => decide (Action.fetchUrl a = some u)) a = true then (1 : Int) else 0)
    (by
      intro f t a t' f' hs
      rcases CrawlTask.step_cases F f t a t' f' hs with
        ⟨url, depth, hd, rfl, rfl, rfl, rfl⟩ | ⟨url, depth, hd, rfl, rfl, rfl, rfl⟩ |
        ⟨url, depth, out, e, _, rfl, rfl, rfl, rfl⟩ | ⟨url, depth, out, _, rfl, rfl, rfl, rfl⟩ |
        ⟨url, depth, rfl, rfl, rfl, rfl⟩ | ⟨url, depth, u', rest, rfl, rfl, rfl, rfl⟩ |
        ⟨url, depth, u', rest, rfl, rfl, rfl, rfl⟩ | ⟨url, depth, rfl, rfl, rfl, rfl⟩ <;>
      simp_all [CrawlTask.hasFetched, CrawlTask.isStart, CrawlTask.url, CrawlTask.depth,
        Action.spawned, Action.delta, Action.fetchUrl])
    (initState root depth f) s h
  simp only [account, sum_map_indicator (CrawlTask.hasFetched u),
    sum_map_log (fun a => decide (Action.fetchUrl a = some u))] at hacc
  simp [initState, CrawlTask.hasFetched, CrawlTask.isStart] at hacc
  unfold fetchedUrls
  rw [count_filterMap_log Action.fetchUrl u s.log]
  omega

theorem fakeFetcher.Fetch_marks (f : fakeFetcher) (url u : String) :
    ((if (f.Fetch url).2.cache.get u = true then (1 : Int) else 0)) =
      (if f.cache.get u = true then (1 : Int) else 0) +
      (if CrawlTask.holdsFound u (.fetched url 0 (f.Fetch url).1) = true then 1 else 0) := by
  cases hv : f.cache.get url with
  | true =>
    rw [fakeFetcher.Fetch_visited f url hv]
    simp [CrawlTask.holdsFound]
  | false =>
    cases hr : f.urls.lookup url with
    | none =>
      rw [fakeFetcher.Fetch_missing f url hv hr]
      simp [CrawlTask.holdsFound]
    | some res =>
      rw [fakeFetcher.Fetch_found f url res hv hr]
      by_cases hu : u = url
      · subst hu
        simp [CrawlTask.holdsFound, Cache.get_set, hv]
      · have hu' : ¬ url = u := fun h => hu h.symm
        simp [CrawlTask.holdsFound, Cache.get_set, hu, hu']

/-- In every reachable state, a url is marked visited exactly when it was so at
the start, or its `found` line is printed, or a goroutine holds its successful
result; the three exclude each other and each happens at most once. -/
theorem found_eq (urls : List (String × fakeResult)) (visited : List (String × Bool))
    (root : String) (depth : Int) (u : String) (s : State fakeFetcher)
    (h : Reachable fakeFetcher.asFetcher (initState root depth ⟨urls, ⟨visited⟩⟩) s) :
    (foundUrls s.log).count u + s.tasks.countP (CrawlTask.holdsFound u) +
        (if Cache.get ⟨visited⟩ u = true then 1 else 0) =
      (if s.fetcher.cache.get u = true then 1 else 0) := by
  have hacc := account_invariant fakeFetcher.asFetcher
    (fun t => -(if CrawlTask.holdsFound u t = true then (1 : Int) else 0)) 0
    (fun f => if f.cache.get u = true then (1 : Int) else 0)
    (fun a => if (fun a => decide (Action.foundUrl a = some u)) a = true then (1 : Int) else 0)
    (by
      intro f t a t' f' hs
      rcases CrawlTask.step_cases fakeFetcher.asFetcher f t a t' f' hs with
        ⟨url, depth, hd, rfl, rfl, rfl, rfl⟩ | ⟨url, depth, hd, rfl, rfl, rfl, rfl⟩ |
        ⟨url, depth, out, e, he, rfl, rfl, rfl, rfl⟩ |
        ⟨url, depth, out, he, rfl, rfl, rfl, rfl⟩ |
        ⟨url, depth, rfl, rfl, rfl, rfl⟩ | ⟨url, depth, u', rest, rfl, rfl, rfl, rfl⟩ |
        ⟨url, depth, u', rest, rfl, rfl, rfl, rfl⟩ | ⟨url, depth, rfl, rfl, rfl, rfl⟩
      · simp [CrawlTask.holdsFound, Action.spawned, Action.foundUrl]
      · have hm := fakeFetcher.Fetch_marks f url u
        simp only [CrawlTask.holdsFound] at hm
        simp only [fakeFetcher.asFetcher, CrawlTask.holdsFound, Action.spawned,
          Action.foundUrl, List.map_nil, List.sum_nil]
        simp at hm ⊢
        omega
      · simp [CrawlTask.holdsFound, Action.spawned, Action.foundUrl, he]
      · by_cases hu : url = u <;>
          simp [CrawlTask.holdsFound, Action.spawned, Action.foundUrl, he, hu]
      · simp [CrawlTask.holdsFound, Action.spawned, Action.foundUrl]
      · simp [CrawlTask.holdsFound, Action.spawned, Action.foundUrl]
      · simp [CrawlTask.holdsFound, Action.spawned, Action.foundUrl]
      · simp [CrawlTask.holdsFound, Action.spawned, Action.foundUrl])
    (initState root depth ⟨urls, ⟨visited⟩⟩) s h
  simp only [account, sum_map_neg_indicator (CrawlTask.holdsFound u),
    sum_map_log (fun a => decide (Action.foundUrl a = some u))] at hacc
  simp [initState, CrawlTask.holdsFound] at hacc
  unfold foundUrls
  rw [count_filterMap_log Action.foundUrl u s.log]
  split_ifs at hacc ⊢ <;> omega

/-! ### The fixture `A -> B, C`, `B -> A` -/

set_option maxRecDepth 1000000 in
set_option maxHeartbeats 4000000 in
/-- The exploration of the fixture from root `A` at depth 2 succeeds and is
exhausted after 17 steps. -/
theorem scenario_check :
    checkLayers scenarioOK 18 [initState "A" 2 (scenario "" "" "")] = true := by
  decide

theorem countP_hasFetched_erase (u : String) (l : List CrawlTask) :
    (l.map CrawlTask.erase).countP (CrawlTask.hasFetched u) =
      l.countP (CrawlTask.hasFetched u) := by
  rw [List.countP_map]
  congr 1
  funext t
  cases t <;> rfl

theorem lookup_some_mem (l : List (String × Bool)) (u : String) (b : Bool)
    (h : l.lookup u = some b) : ∃ p ∈ l, p.1 = u := by
  induction l with
  | nil => simp at h
  | cons p rest ih =>
    obtain ⟨k, v⟩ := p
    cases hk : (u == k) with
    | true => exact ⟨(k, v), by simp, (by simpa using hk : u = k).symm⟩
    | false =>
      simp [List.lookup, hk] at h
      obtain ⟨q, hq, hqu⟩ := ih h
      exact ⟨q, List.mem_cons_of_mem _ hq, hqu⟩

theorem holdsFound_zero_of_done (u : String) (l : List CrawlTask)
    (h : ∀ t ∈ l, t.isDone = true) : l.countP (CrawlTask.holdsFound u) = 0 := by
  refine List.countP_eq_zero.mpr (fun t ht => ?_)
  have := h t ht
  cases t <;> simp_all [CrawlTask.isDone, CrawlTask.holdsFound]

/-! ### Claims about `fakeFetcher.Fetch` and about one `Crawl` call -/

/-- C4: for every url and every fetcher, `Crawl(url, 0, fetcher)` calls `Fetch`
zero times, prints nothing, sends no `+1` and spawns nothing: its only effect
is the single `-1` sent on `count`, and the state behind the fetcher (the
visited set) is unchanged; the goroutine of the interleaving model does the same. -/
theorem C4_depth_zero_no_work (σ : Type) (F : Fetcher σ) (url : String) (f : σ) :
    Crawl F url 0 f = ([Action.send (-1)], f) ∧
    CrawlTask.run F 1 (.start url 0) f = ([Action.send (-1)], .done url 0, f) := by
  constructor
  · simp [Crawl]
  · simp [CrawlTask.run, CrawlTask.step]

/-- C5: every execution of `Crawl`, for every url, every depth and every outcome
of `Fetch`, sends `-1` on `count` exactly once, and that send is its last effect. -/
theorem C5_deregisters_exactly_once (σ : Type) (F : Fetcher σ) (url : String)
    (depth : Int) (f : σ) :
    (Crawl F url depth f).1.count (Action.send (-1)) = 1 ∧
    (Crawl F url depth f).1.getLast? = some (Action.send (-1)) := by
  by_cases hd : depth ≤ 0
  · rw [Crawl_depth_le σ F url depth f hd]
    simp
  · have hd' : 0 < depth := by omega
    cases he : (F.Fetch f url).1.err with
    | some e =>
      rw [Crawl_err σ F url depth f e hd' he]
      simp [List.count_cons]
    | none =>
      rw [Crawl_ok σ F url depth f hd' he]
      refine ⟨by simp [List.count_cons, spawnLoop_count_deregister], ?_⟩
      have hl : ∀ (l : List Action) (x : Action), (l ++ [x]).getLast? = some x := by
        intro l x; simp
      exact hl (Action.fetchCall url :: Action.printFound url (F.Fetch f url).1.body ::
        spawnLoop depth (F.Fetch f url).1.urls) _

/-- C2: for every `fakeFetcher` and every sequence of `Fetch` calls, at most one
call on a given url returns a `nil` error, and every call on that url after a
successful one returns an error with empty body and no links. -/
theorem C2_fetch_at_most_once (f : fakeFetcher) (calls : List String) (url : String) :
    f.successes calls url ≤ 1 ∧
    ∀ (i j : Nat) (o : FetchOut), i < j →
      calls[i]? = some url → calls[j]? = some url →
      (f.fetchAll calls)[i]? = some o → o.err = none →
      ∃ e : String, (f.fetchAll calls)[j]? = some ⟨"", [], some e⟩ :=
  ⟨fakeFetcher.successes_le_one calls f url, fun i j o hij hi hj ho he =>
    ⟨_, fakeFetcher.fetchAll_after_ok calls f url i j o hij hi hj ho he⟩⟩

theorem C2_fetch_at_most_once_witness :
    fetcher.successes ["http://golang.org/", "http://golang.org/pkg/", "http://golang.org/"]
        "http://golang.org/" ≤ 1 ∧
    ∃ e : String,
      (fetcher.fetchAll
        ["http://golang.org/", "http://golang.org/pkg/", "http://golang.org/"])[2]? =
        some ⟨"", [], some e⟩ :=
  ⟨(C2_fetch_at_most_once fetcher
      ["http://golang.org/", "http://golang.org/pkg/", "http://golang.org/"]
      "http://golang.org/").1,
   (C2_fetch_at_most_once fetcher
      ["http://golang.org/", "http://golang.org/pkg/", "http://golang.org/"]
      "http://golang.org/").2 0 2
      ⟨"The Go Programming Language", ["http://golang.org/pkg/", "http://golang.org/cmd/"], none⟩
      (by decide) (by decide) (by decide) (by decide) rfl⟩

/-- C8 (as stated, refuted): an id that is absent from `cache.visited` and also
absent from `urls` is not inserted, and `Fetch` returns the error `not found`. -/
theorem C8_counterexample :
    Cache.get ⟨[]⟩ "x" = false ∧
    (fakeFetcher.Fetch ⟨[], ⟨[]⟩⟩ "x").1.err = some "not found: x" ∧
    (fakeFetcher.Fetch ⟨[], ⟨[]⟩⟩ "x").2.cache.get "x" = false := by
  decide

/-- C8 (amended): for every fetcher state whose map `cache.visited` is allocated
and whose `urls` values are non-nil pointers (the states of `fakeFetcher` here),
and every id absent from `cache.visited`: `Fetch(id)` inserts the id and returns
the stored body and links with a `nil` error when `urls` has the id, and
otherwise returns the error `not found` and leaves the fetcher as it was. -/
theorem C8_visited_guard_claims (f : fakeFetcher) (id : String)
    (h : f.cache.get id = false) :
    (∀ res : fakeResult, f.urls.lookup id = some res →
      f.Fetch id = (⟨res.body, res.urls, none⟩, { f with cache := f.cache.set id }) ∧
      (f.Fetch id).2.cache.get id = true) ∧
    (f.urls.lookup id = none → f.Fetch id = (⟨"", [], some ("not found: " ++ id)⟩, f)) := by
  refine ⟨fun res hr => ?_, fun hr => fakeFetcher.Fetch_missing f id h hr⟩
  rw [fakeFetcher.Fetch_found f id res h hr]
  exact ⟨rfl, by simp [Cache.get_set]⟩

theorem C8_visited_guard_claims_witness :
    fetcher.cache.get "http://golang.org/pkg/os/" = false ∧
    fetcher.Fetch "http://golang.org/pkg/os/" =
      (⟨"Package os", ["http://golang.org/", "http://golang.org/pkg/"], none⟩,
       { fetcher with cache := fetcher.cache.set "http://golang.org/pkg/os/" }) ∧
    (fetcher.Fetch "http://golang.org/pkg/os/").2.cache.get "http://golang.org/pkg/os/" = true :=
  ⟨by decide,
   (C8_visited_guard_claims fetcher "http://golang.org/pkg/os/" (by decide)).1
     ⟨"Package os", ["http://golang.org/", "http://golang.org/pkg/"]⟩ (by decide)⟩

/-! ### Claims about the completion protocol -/

/-- C1: in every reachable state of the program, `crawlCount` equals the number
of `Crawl` tasks registered (the root by the seed `1`, each child by its `+1`
received) whose `-1` has not been received; so `crawlCount` is never negative,
and it is `0` exactly when every goroutine has finished and none waits to start. -/
theorem C1_crawlCount_is_pending (σ : Type) (F : Fetcher σ) (root : String)
    (depth : Int) (f : σ) (s : State σ) (h : Reachable F (initState root depth f) s) :
    s.crawlCount = (pending s : Int) ∧
    s.crawlCount = 1 + (registers s.log : Int) - (deregisters s.log : Int) ∧
    0 ≤ s.crawlCount ∧
    (s.crawlCount = 0 ↔ ∀ t ∈ s.tasks, t.isDone = true) := by
  have hp := crawlCount_eq_pending F root depth f s h
  have hr := registers_eq F root depth f s h
  have hd := deregisters_eq F root depth f s h
  have hz := pending_eq_zero_iff s
  have hsplit : s.tasks.countP CrawlTask.isDone + s.tasks.countP (fun t => !t.isDone) =
      s.tasks.length := by
    have := List.length_eq_countP_add_countP CrawlTask.isDone s.tasks
    simp only [Bool.not_eq_true] at this
    have h2 : s.tasks.countP (fun t => !t.isDone) =
        s.tasks.countP (fun t => decide (t.isDone = false)) := by
      congr 1; funext t; cases t.isDone <;> rfl
    omega
  refine ⟨hp, ?_, by omega, ?_⟩
  · unfold pending at hp
    omega
  · rw [← hz]
    omega

theorem C1_crawlCount_is_pending_witness :
    Reachable fakeFetcher.asFetcher (initState "http://golang.org/" 4 fetcher) mainFinal ∧
    mainFinal.crawlCount = (pending mainFinal : Int) ∧
    mainFinal.crawlCount =
      1 + (registers mainFinal.log : Int) - (deregisters mainFinal.log : Int) ∧
    0 ≤ mainFinal.crawlCount ∧
    (mainFinal.crawlCount = 0 ↔ ∀ t ∈ mainFinal.tasks, t.isDone = true) :=
  ⟨mainFinal_reachable,
   C1_crawlCount_is_pending fakeFetcher fakeFetcher.asFetcher "http://golang.org/" 4 fetcher
     mainFinal mainFinal_reachable⟩

/-- C7 (as stated, refuted): the complete run `mainSchedule` of the program
creates 11 `Crawl` tasks and `main` receives 11 deregister signals, but only 10
register signals are sent on `count`: the root is registered by the seed `1`. -/
theorem C7_counterexample :
    mainFinal.mainDone = true ∧ mainFinal.tasks.length = 11 ∧
    deregisters mainFinal.log = 11 ∧ registers mainFinal.log ≠ 11 := by
  have h := mainFinal_summary
  simp only [Prod.mk.injEq] at h
  obtain ⟨h1, h2, h3, h4, _⟩ := h
  exact ⟨h1, h2, h4, by omega⟩

/-- C7 (amended): in every run `crawlCount` is never negative and equals the
seed `1` plus the `+1` received minus the `-1` received; and when the run is
complete (`main` has returned) having created `N` tasks, `N - 1` register
signals and `N` deregister signals were sent on `count`. -/
theorem C7_completion_accounting (σ : Type) (F : Fetcher σ) (root : String)
    (depth : Int) (f : σ) (s : State σ) (h : Reachable F (initState root depth f) s) :
    0 ≤ s.crawlCount ∧
    s.crawlCount = 1 + (registers s.log : Int) - (deregisters s.log : Int) ∧
    (s.mainDone = true →
      registers s.log + 1 = s.tasks.length ∧ deregisters s.log = s.tasks.length) := by
  have hp := crawlCount_eq_pending F root depth f s h
  have hr := registers_eq F root depth f s h
  have hd := deregisters_eq F root depth f s h
  have hsplit : s.tasks.countP CrawlTask.isDone + s.tasks.countP (fun t => !t.isDone) =
      s.tasks.length := by
    have := List.length_eq_countP_add_countP CrawlTask.isDone s.tasks
    simp only [Bool.not_eq_true] at this
    have h2 : s.tasks.countP (fun t => !t.isDone) =
        s.tasks.countP (fun t => decide (t.isDone = false)) := by
      congr 1; funext t; cases t.isDone <;> rfl
    omega
  have hpd := hp
  unfold pending at hpd
  refine ⟨by omega, by omega, fun hm => ?_⟩
  have hc := mainDone_crawlCount F (initState root depth f) s rfl h hm
  omega

theorem C7_completion_accounting_witness :
    Reachable fakeFetcher.asFetcher (initState "http://golang.org/" 4 fetcher) mainFinal ∧
    mainFinal.mainDone = true ∧
    registers mainFinal.log + 1 = mainFinal.tasks.length ∧
    deregisters mainFinal.log = mainFinal.tasks.length :=
  ⟨mainFinal_reachable, (by
      have h := mainFinal_summary
      simp only [Prod.mk.injEq] at h
      exact h.1),
   (C7_completion_accounting fakeFetcher fakeFetcher.asFetcher "http://golang.org/" 4 fetcher
     mainFinal mainFinal_reachable).2.2 (by
      have h := mainFinal_summary
      simp only [Prod.mk.injEq] at h
      exact h.1)⟩

/-- C10: when `Fetch` succeeds with links `u1 .. un` at `depth > 0`, `Crawl`
calls `Fetch`, prints one `found` line, then for each link in the order
returned sends `+1` and after it executes `go Crawl(ui, depth-1, fetcher)`, and
last sends `-1`: exactly `n` register signals and `n` children, all at
`depth-1`.  In every reachable state of the program the children created are
never more than the `+1` signals `main` has received. -/
theorem C10_spawning_order (σ : Type) (F : Fetcher σ) (url : String) (depth : Int)
    (f : σ) (hd : 0 < depth) (he : (F.Fetch f url).1.err = none) :
    Crawl F url depth f =
      (Action.fetchCall url :: Action.printFound url (F.Fetch f url).1.body ::
        ((F.Fetch f url).1.urls.flatMap
            (fun u => [Action.send 1, Action.go u (depth - 1)]) ++ [Action.send (-1)]),
       (F.Fetch f url).2) ∧
    (Crawl F url depth f).1.count (Action.send 1) = (F.Fetch f url).1.urls.length ∧
    (Crawl F url depth f).1.flatMap Action.spawned =
      (F.Fetch f url).1.urls.map (fun u => CrawlTask.start u (depth - 1)) ∧
    ∀ (root : String) (d₀ : Int) (f₀ : σ) (s : State σ),
      Reachable F (initState root d₀ f₀) s →
      s.tasks.length = 1 + spawns s.log ∧
      spawns s.log + s.tasks.countP CrawlTask.isSpawning = registers s.log := by
  refine ⟨?_, ?_, ?_, ?_⟩
  · rw [Crawl_ok σ F url depth f hd he, spawnLoop_eq_flatMap]
  · rw [Crawl_ok σ F url depth f hd he]
    simp [List.count_cons, spawnLoop_count_register]
  · rw [Crawl_ok σ F url depth f hd he]
    simp [Action.spawned, spawnLoop_spawned]
  · intro root d₀ f₀ s h
    have h1 := spawns_eq F root d₀ f₀ s h
    have h2 := registers_eq F root d₀ f₀ s h
    omega

theorem C10_spawning_order_witness :
    Crawl fakeFetcher.asFetcher "http://golang.org/" 4 fetcher =
      ([Action.fetchCall "http://golang.org/",
        Action.printFound "http://golang.org/" "The Go Programming Language",
        Action.send 1, Action.go "http://golang.org/pkg/" 3,
        Action.send 1, Action.go "http://golang.org/cmd/" 3,
        Action.send (-1)],
       (fetcher.Fetch "http://golang.org/").2) :=
  (C10_spawning_order fakeFetcher fakeFetcher.asFetcher "http://golang.org/" 4 fetcher
    (by decide) (by decide)).1

/-- C3: for every finite `urls` map, every visited set and every starting depth,
every schedule of the program has at most `potential` steps (so it creates
finitely many goroutines and `main` receives finitely often), some step is
enabled as long as `main` has not returned, some schedule lets `main` return
from every state reached, and once `main` has returned `crawlCount` is `0` and
nothing runs any more. -/
theorem C3_termination (urls : List (String × fakeResult)) (visited : List (String × Bool))
    (root : String) (depth : Int) (cs : List Choice) (s : State fakeFetcher)
    (h : exec fakeFetcher.asFetcher (initState root depth ⟨urls, ⟨visited⟩⟩) cs = some s) :
    cs.length ≤ weight (maxLinks urls) depth.toNat + 1 ∧
    s.tasks.length ≤ weight (maxLinks urls) depth.toNat + 2 ∧
    (s.mainDone = false → ∃ c s', step fakeFetcher.asFetcher s c = some s') ∧
    (∃ cs' s', exec fakeFetcher.asFetcher s cs' = some s' ∧ s'.mainDone = true) ∧
    (s.mainDone = true →
      s.crawlCount = 0 ∧ ∀ c, step fakeFetcher.asFetcher s c = none) := by
  have hr : Reachable fakeFetcher.asFetcher (initState root depth ⟨urls, ⟨visited⟩⟩) s :=
    ⟨cs, h⟩
  obtain ⟨h1, h2⟩ := exec_potential cs _ s h
  have h0 : potential (initState root depth (⟨urls, ⟨visited⟩⟩ : fakeFetcher)) =
      weight (maxLinks urls) depth.toNat + 1 := by
    simp [potential, initState, CrawlTask.potential]
  have hl : (initState root depth (⟨urls, ⟨visited⟩⟩ : fakeFetcher)).tasks.length = 1 := rfl
  refine ⟨by omega, by omega, progress _ root depth _ s hr,
    completes (potential s) root depth _ s (le_refl _) hr, fun hm => ⟨?_, fun c =>
      step_mainDone_none _ s c hm⟩⟩
  have hc := mainDone_crawlCount _ _ s rfl hr hm
  have hp := crawlCount_eq_pending _ root depth _ s hr
  omega

set_option maxRecDepth 100000 in
theorem C3_termination_witness :
    exec fakeFetcher.asFetcher (initState "http://golang.org/" 4 fetcher) mainSchedule =
      some mainFinal ∧
    mainSchedule.length ≤ weight (maxLinks fetcher.urls) 4 + 1 ∧
    mainFinal.crawlCount = 0 :=
  ⟨by decide,
   (C3_termination fetcher.urls [] "http://golang.org/" 4 mainSchedule mainFinal
     (by decide)).1,
   ((C3_termination fetcher.urls [] "http://golang.org/" 4 mainSchedule mainFinal
     (by decide)).2.2.2.2 (by decide)).1⟩

/-! ### Claims about fetch errors -/

set_option maxRecDepth 100000 in
/-- C6 (as stated, refuted): in the complete run `mainSchedule` of the program,
goroutine 8 is `Crawl("http://golang.org/pkg/", 1, fetcher)` and its `Fetch`
returns the error `already visited`; the page `http://golang.org/pkg/os/` is
linked from `http://golang.org/pkg/` only, and it is fetched in the run. -/
theorem C6_counterexample :
    mainFinal.tasks[8]? = some (CrawlTask.done "http://golang.org/pkg/" 1) ∧
    (8, Action.fetchCall "http://golang.org/pkg/") ∈ mainFinal.log ∧
    (8, Action.println "already visited http://golang.org/pkg/") ∈ mainFinal.log ∧
    (∀ p ∈ fetcher.urls, "http://golang.org/pkg/os/" ∈ p.2.urls →
      p.1 = "http://golang.org/pkg/") ∧
    "http://golang.org/pkg/os/" ≠ "http://golang.org/" ∧
    (6, Action.fetchCall "http://golang.org/pkg/os/") ∈ mainFinal.log ∧
    (6, Action.printFound "http://golang.org/pkg/os/" "Package os") ∈ mainFinal.log := by
  decide

/-- C6 (amended): when `Fetch(X)` returns a non-nil error at `depth > 0`,
`Crawl(X, depth, fetcher)` calls `Fetch`, prints the error and sends `-1`, and
nothing else: no `found` line, no `+1`, no child; a failing `fakeFetcher.Fetch`
leaves the fetcher as it was, so other goroutines see the same state.  In every
reachable state of the program, a url on which `Fetch` was called is the root
or a link of a page whose `found` line is printed; and as long as no `found`
line for `X` is printed, every url on which `Fetch` was called is reachable
from the root along links of pages other than `X`, so a resource reachable
only through `X` has not been fetched. -/
theorem C6_error_isolation (urls : List (String × fakeResult))
    (visited : List (String × Bool)) (root : String) (depth : Int) :
    (∀ (σ : Type) (F : Fetcher σ) (X : String) (d : Int) (f : σ) (e : String),
      0 < d → (F.Fetch f X).1.err = some e →
      Crawl F X d f =
        ([Action.fetchCall X, Action.println e, Action.send (-1)], (F.Fetch f X).2)) ∧
    (∀ (f : fakeFetcher) (X : String), (f.Fetch X).1.err ≠ none → (f.Fetch X).2 = f) ∧
    (∀ s : State fakeFetcher,
      Reachable fakeFetcher.asFetcher (initState root depth ⟨urls, ⟨visited⟩⟩) s →
      ∀ Y ∈ fetchedUrls s.log,
        Y = root ∨ ∃ X r, X ∈ foundUrls s.log ∧ urls.lookup X = some r ∧ Y ∈ r.urls) ∧
    (∀ s : State fakeFetcher,
      Reachable fakeFetcher.asFetcher (initState root depth ⟨urls, ⟨visited⟩⟩) s →
      ∀ X, X ∉ foundUrls s.log →
        ∀ Y ∈ fetchedUrls s.log, ReachableAvoiding urls root X Y) := by
  refine ⟨fun σ F X d f e hd he => Crawl_err σ F X d f e hd he,
    fun f X he => fakeFetcher.Fetch_err_same f X he, fun s hr Y hY => ?_,
    fun s hr X hX Y hY => ?_⟩
  · obtain ⟨_, htasks, hfetch⟩ := isolated_invariant urls visited root depth s hr
    obtain ⟨t, ht, rfl⟩ := hfetch Y hY
    exact (htasks t ht).1
  · obtain ⟨_, _, hfetch⟩ := isolated_invariant urls visited root depth s hr
    obtain ⟨t, ht, rfl⟩ := hfetch Y hY
    exact avoiding_invariant urls visited root depth s hr X hX t ht

set_option maxRecDepth 100000 in
theorem C6_error_isolation_witness :
    Crawl fakeFetcher.asFetcher "http://golang.org/cmd/" 3 fetcher =
      ([Action.fetchCall "http://golang.org/cmd/",
        Action.println "not found: http://golang.org/cmd/", Action.send (-1)],
       (fetcher.Fetch "http://golang.org/cmd/").2) ∧
    (fetcher.Fetch "http://golang.org/cmd/").2 = fetcher ∧
    ("http://golang.org/pkg/os/" = "http://golang.org/" ∨
      ∃ X r, X ∈ foundUrls mainFinal.log ∧ fetcher.urls.lookup X = some r ∧
        "http://golang.org/pkg/os/" ∈ r.urls) ∧
    "http://golang.org/cmd/" ∉ foundUrls mainFinal.log ∧
    ReachableAvoiding fetcher.urls "http://golang.org/" "http://golang.org/cmd/"
      "http://golang.org/pkg/os/" :=
  ⟨(C6_error_isolation fetcher.urls [] "http://golang.org/" 4).1 fakeFetcher
      fakeFetcher.asFetcher "http://golang.org/cmd/" 3 fetcher
      "not found: http://golang.org/cmd/" (by decide) (by decide),
   (C6_error_isolation fetcher.urls [] "http://golang.org/" 4).2.1 fetcher
      "http://golang.org/cmd/" (by decide),
   (C6_error_isolation fetcher.urls [] "http://golang.org/" 4).2.2.1 mainFinal
      mainFinal_reachable "http://golang.org/pkg/os/" (by decide),
   by decide,
   (C6_error_isolation fetcher.urls [] "http://golang.org/" 4).2.2.2 mainFinal
      mainFinal_reachable "http://golang.org/cmd/" (by decide)
      "http://golang.org/pkg/os/" (by decide)⟩

/-! ### The concrete scenario -/

/-- C9: with `urls = {A: [B, C], B: [A], C: []}` (any bodies), an empty visited
set, root `A` and depth 2, every schedule has at most 17 steps and can go on
until `main` returns; in every state at most one `Fetch` call on `A` has been
made and no `found` line is printed twice; and when `main` has returned, the
`found` lines are those of `A`, `B`, `C`, each once, `Fetch` was called on `A`
exactly once, and `crawlCount` is `0`. -/
theorem C9_scenario (a b c : String) (cs : List Choice) (s : State fakeFetcher)
    (h : exec fakeFetcher.asFetcher (initState "A" 2 (scenario a b c)) cs = some s) :
    cs.length ≤ 17 ∧
    (s.mainDone = false → ∃ ch s', step fakeFetcher.asFetcher s ch = some s') ∧
    (fetchedUrls s.log).count "A" ≤ 1 ∧
    (∀ u, (foundUrls s.log).count u ≤ 1) ∧
    (s.mainDone = true →
      (foundUrls s.log).Perm ["A", "B", "C"] ∧
      (fetchedUrls s.log).count "A" = 1 ∧
      s.crawlCount = 0) := by
  have hr : Reachable fakeFetcher.asFetcher (initState "A" 2 (scenario a b c)) s := ⟨cs, h⟩
  obtain ⟨hlen, hok⟩ := checkLayers_sound scenarioOK 18 _ scenario_check cs
    (initState "A" 2 (scenario a b c)) s (List.mem_singleton.mpr rfl) h
  have hfc := fetchCalls_eq fakeFetcher.asFetcher "A" 2 (scenario a b c) "A" s hr
  have hfound : ∀ u, (foundUrls s.log).count u + s.tasks.countP (CrawlTask.holdsFound u) =
      (if s.fetcher.cache.get u = true then 1 else 0) := by
    intro u
    have := found_eq (scenario a b c).urls [] "A" 2 u s hr
    simpa [Cache.get] using this
  simp only [scenarioOK, State.erase, countP_hasFetched_erase, Bool.and_eq_true,
    Bool.or_eq_true, decide_eq_true_eq, Bool.not_eq_true', List.all_eq_true] at hok
  obtain ⟨hle, hend⟩ := hok
  refine ⟨by omega, progress _ "A" 2 _ s hr, by omega, fun u => ?_, fun hm => ?_⟩
  · have := hfound u
    split_ifs at this <;> omega
  · rcases hend with hend | ⟨⟨⟨⟨h1, hA⟩, hB⟩, hC⟩, hkeys⟩
    · rw [hm] at hend
      exact absurd hend (by simp)
    · have hc := mainDone_crawlCount _ _ s rfl hr hm
      have hp := crawlCount_eq_pending _ "A" 2 _ s hr
      have hz : s.crawlCount = 0 := by omega
      have hdone : ∀ t ∈ s.tasks, t.isDone = true :=
        (pending_eq_zero_iff s).mp (by omega)
      have hcache : s.fetcher.erase.cache = s.fetcher.cache := rfl
      rw [hcache] at hA hB hC hkeys
      have hget : ∀ u, s.fetcher.cache.get u = true → u ∈ ["A", "B", "C"] := by
        intro u hu
        unfold Cache.get at hu
        cases hl : s.fetcher.cache.visited.lookup u with
        | none => simp [hl] at hu
        | some v =>
          obtain ⟨p, hp, hpu⟩ := lookup_some_mem _ u v hl
          exact hpu ▸ hkeys p hp
      refine ⟨List.perm_iff_count.mpr (fun u => ?_), by omega, hz⟩
      have hu := hfound u
      rw [holdsFound_zero_of_done u s.tasks hdone] at hu
      by_cases hmem : u ∈ ["A", "B", "C"]
      · have hg : s.fetcher.cache.get u = true := by
          simp only [List.mem_cons, List.mem_singleton, List.not_mem_nil, or_false] at hmem
          rcases hmem with rfl | rfl | rfl <;> assumption
        rw [hg] at hu
        simp only [List.mem_cons, List.mem_singleton, List.not_mem_nil, or_false] at hmem
        rcases hmem with rfl | rfl | rfl <;> simpa using hu
      · have hg : ¬ s.fetcher.cache.get u = true := fun hg => hmem (hget u hg)
        rw [if_neg hg] at hu
        rw [List.count_eq_zero_of_not_mem hmem]
        omega

set_option maxRecDepth 100000 in
theorem C9_scenario_witness :
    exec fakeFetcher.asFetcher (initState "A" 2 (scenario "a" "b" "c")) scenarioSchedule =
      some scenarioFinal ∧
    scenarioSchedule.length ≤ 17 ∧
    (foundUrls scenarioFinal.log).Perm ["A", "B", "C"] ∧
    (fetchedUrls scenarioFinal.log).count "A" = 1 ∧
    scenarioFinal.crawlCount = 0 :=
  ⟨by decide,
   (C9_scenario "a" "b" "c" scenarioSchedule scenarioFinal (by decide)).1,
   (C9_scenario "a" "b" "c" scenarioSchedule scenarioFinal (by decide)).2.2.2.2 (by decide)⟩

end Crawler
